import Mathlib

/-
Verification of the iop-lsp indexing and resolution engine.

Shallow embedding of the Python sources:
  - c_mapping.py   : CamelCase <-> snake_case name mangling
  - doc_comments.py: doc-comment extraction over syntax-tree nodes
  - symbols.py     : symbol data model
  - indexer.py     : symbol index (multi-keyed views), extraction, (re-)indexing

Python dictionaries are modelled as insertion-ordered association lists
(`List (String × α)`): updating an existing key keeps its position, inserting
a new key appends at the end, exactly like CPython dicts.  Tree-sitter nodes
are modelled by an explicit tree type `TSTree` carrying the node type tag,
source text, named-ness, positions and children; the parser itself is an
external collaborator, so indexing operations take the parsed tree (or, for
`index_file`, an `Option` for the read-then-parse result, `none` modelling a
failed file read).
-/

namespace IopLsp

/-! ### Python string primitives -/

/-- Python `str` whitespace for `str.strip()` (space, tab, LF, CR, VT, FF). -/
def isPySpace (c : Char) : Bool :=
  c = ' ' || c = '\t' || c = '\n' || c = '\r' || c = '\x0b' || c = '\x0c'

/-- Python `s.strip()`. -/
def pyStrip (s : String) : String :=
  String.mk (((s.data.dropWhile isPySpace).reverse.dropWhile isPySpace).reverse)

/-- Python `s.lstrip(chars)`: drop leading characters drawn from `chars`. -/
def pyLStrip (chars : List Char) (s : String) : String :=
  String.mk (s.data.dropWhile (fun c => chars.contains c))

/-- Python `str.capitalize()`: first character uppercased, the rest lowercased. -/
def pyCapitalize (s : String) : String :=
  match s.data with
  | [] => ""
  | c :: rest => String.mk (c.toUpper :: rest.map Char.toLower)

/-- `startswith` on character lists (the byte-position-based core
`String.startsWith` is replaced by this list computation). -/
def listStarts : List Char → List Char → Bool
  | _, [] => true
  | [], _ :: _ => false
  | a :: as, b :: bs => a = b && listStarts as bs

/-- Python `s.startswith(pre2)`. -/
def strStarts (s pre2 : String) : Bool := listStarts s.data pre2.data

/-- Python `s.endswith(suf)`. -/
def strEnds (s suf : String) : Bool :=
  listStarts s.data.reverse suf.data.reverse

/-- Python `str.split(sep)` for a one-character separator (used with `'_'`
and `'\n'`): no run collapsing, `"".split(sep) == ['']`. -/
def pySplitChar (sep : Char) : List Char → List (List Char)
  | [] => [[]]
  | c :: rest =>
    match pySplitChar sep rest with
    | h :: t => if c = sep then [] :: h :: t else (c :: h) :: t
    | [] => if c = sep then [[], []] else [[c]]

def pySplitStr (sep : Char) (s : String) : List String :=
  (pySplitChar sep s.data).map String.mk

/-! ### c_mapping.py -/

/-- First substitution of `camelcase_to_c`:
`re.sub(r'([a-z0-9])([A-Z])', r'\1_\2', name)` — insert `_` between a
lowercase letter or digit and a following uppercase letter.  Since the second
character of a match is uppercase it can never start the next match, the
left-to-right non-overlapping scan is the pointwise insertion. -/
def camelSub1 : List Char → List Char
  | [] => []
  | [c] => [c]
  | a :: b :: rest =>
    if (a.isLower || a.isDigit) && b.isUpper then
      a :: '_' :: camelSub1 (b :: rest)
    else
      a :: camelSub1 (b :: rest)

/-- Second substitution of `camelcase_to_c`:
`re.sub(r'([A-Z]+)([A-Z][a-z])', r'\1_\2', s)` — insert `_` before an
uppercase letter that is followed by a lowercase letter and preceded by an
uppercase letter (acronym boundary).  The greedy match consumes the uppercase
run plus the following upper-lower pair and can never skip another insertion
point, so the scan is again the pointwise insertion. -/
def camelSub2Aux (p : Char) : List Char → List Char
  | [] => []
  | [c] => [c]
  | c :: n :: rest =>
    if p.isUpper && c.isUpper && n.isLower then
      '_' :: c :: camelSub2Aux c (n :: rest)
    else
      c :: camelSub2Aux c (n :: rest)

def camelSub2 : List Char → List Char
  | [] => []
  | c :: rest => c :: camelSub2Aux c rest

/-- `camelcase_to_c`: CamelCase to snake_case (`MyStructA -> my_struct_a`,
`HTTPCode -> http_code`). -/
def camelcase_to_c (name : String) : String :=
  String.mk ((camelSub2 (camelSub1 name.data)).map Char.toLower)

/-- `c_to_camelcase`: `''.join(part.capitalize() for part in name.split('_'))`. -/
def c_to_camelcase (name : String) : String :=
  String.join ((pySplitStr '_' name).map pyCapitalize)

/-- Python `qualified_name.rsplit('.', 1)` restricted to the at-most-one-dot
split: `some (before, after)` at the last `.`, `none` when there is no dot. -/
def rsplitDot : List Char → Option (List Char × List Char)
  | [] => none
  | c :: rest =>
    match rsplitDot rest with
    | some (l, r) => some (c :: l, r)
    | none => if c = '.' then some ([], rest) else none

/-- Python `pkg.replace('.', '__')` on the character list. -/
def replaceDots : List Char → List Char
  | [] => []
  | c :: rest =>
    if c = '.' then '_' :: '_' :: replaceDots rest else c :: replaceDots rest

/-- `iop_type_to_c`: IOP qualified name to C type base name,
`tstiop.MyStructA -> tstiop__my_struct_a`. -/
def iop_type_to_c (qualified_name : String) : String :=
  match rsplitDot qualified_name.data with
  | some (pkg, type_name) =>
    String.mk (replaceDots pkg) ++ "__" ++ camelcase_to_c (String.mk type_name)
  | none => camelcase_to_c qualified_name

/-- `C_TYPE_SUFFIXES`, ordered longest first. -/
def C_TYPE_SUFFIXES : List String :=
  ["__array_t", "__opt_t", "__sp", "__ep", "__t", "__s", "__e"]

/-- The first-matching-suffix strip loop used on `@ctype` overrides and on C
identifiers (`for suffix in C_TYPE_SUFFIXES: if base.endswith(suffix): ...`). -/
def stripCSuffix (base : String) : String :=
  match C_TYPE_SUFFIXES.find? (fun suf => strEnds base suf) with
  | some suf => base.dropRight suf.length
  | none => base

/-! ### symbols.py -/

inductive SymbolKind where
  | STRUCT | UNION | CLASS | ENUM | INTERFACE | MODULE
  | TYPEDEF | SNMP_OBJ | SNMP_TBL | SNMP_IFACE
deriving DecidableEq

structure Range where
  start_line : Nat
  start_col : Nat
  end_line : Nat
  end_col : Nat
deriving DecidableEq

structure FieldSymbol where
  name : String
  type_ref : Option String
  specifier : Option String
  default_value : Option String
  range : Range
  doc : Option String
deriving DecidableEq

structure RpcSymbol where
  name : String
  in_type : Option String
  out_type : Option String
  throw_type : Option String
  range : Range
  doc : Option String
deriving DecidableEq

structure EnumValueSymbol where
  name : String
  value : Option String
  range : Range
  doc : Option String
deriving DecidableEq

structure Symbol where
  name : String
  qualified_name : String
  kind : SymbolKind
  file : String
  range : Range
  doc : Option String
  package : String
  parent_class : Option String
  fields : List FieldSymbol := []
  enum_values : List EnumValueSymbol := []
  rpcs : List RpcSymbol := []
  typedef_source : Option String := none
  ctype : Option String := none
deriving DecidableEq

/-! ### Tree-sitter node model

A parsed syntax-tree node: type tag, raw source text, named/anonymous flag,
start/end positions and ordered children.  Sibling-relative operations
(`prev_named_sibling`, walking the parent's children after a node) are modelled
by passing the node's context explicitly: `prevSibs` is the list of siblings
before the node, nearest first; `nextSibs` the siblings after it, in order. -/

inductive TSTree where
  | node (type : String) (text : String) (isNamed : Bool)
      (startRow startCol endRow endCol : Nat)
      (children : List TSTree)

def TSTree.type : TSTree → String
  | .node t _ _ _ _ _ _ _ => t

def TSTree.text : TSTree → String
  | .node _ x _ _ _ _ _ _ => x

def TSTree.isNamed : TSTree → Bool
  | .node _ _ b _ _ _ _ _ => b

def TSTree.startRow : TSTree → Nat
  | .node _ _ _ r _ _ _ _ => r

def TSTree.startCol : TSTree → Nat
  | .node _ _ _ _ c _ _ _ => c

def TSTree.endRow : TSTree → Nat
  | .node _ _ _ _ _ r _ _ => r

def TSTree.endCol : TSTree → Nat
  | .node _ _ _ _ _ _ c _ => c

def TSTree.children : TSTree → List TSTree
  | .node _ _ _ _ _ _ _ cs => cs

/-- `_node_range`: the source range of a node. -/
def nodeRange (n : TSTree) : Range :=
  ⟨n.startRow, n.startCol, n.endRow, n.endCol⟩

/-- `_find_child(node, type_name)`: first child with the given type. -/
def findChild (n : TSTree) (type_name : String) : Option TSTree :=
  n.children.find? (fun c => c.type = type_name)

/-- `_find_children(node, type_name)`: all children with the given type. -/
def findChildren (n : TSTree) (type_name : String) : List TSTree :=
  n.children.filter (fun c => c.type = type_name)

/-- `_find_identifier`: first `identifier` child. -/
def findIdentifier (n : TSTree) : Option TSTree :=
  findChild n "identifier"

/-! ### doc_comments.py -/

/-- `_clean_doc_comment`: strip the block-comment delimiters, a leading
`* ` or `*` from each (stripped) line, and trim the result. -/
def cleanDocComment (text : String) : String :=
  let text := text.drop 3
  let text := if strEnds text "*/" then text.dropRight 2 else text
  let lines := pySplitStr '\n' text
  let cleaned := lines.map (fun line =>
    let line := pyStrip line
    if strStarts line "* " then line.drop 2
    else if strStarts line "*" then line.drop 1
    else line)
  pyStrip (String.intercalate "\n" cleaned)

/-- `_clean_trailing_doc_comment`: strip `/**<` and `*/` and trim. -/
def cleanTrailingDocComment (text : String) : String :=
  let text := text.drop 4
  let text := if strEnds text "*/" then text.dropRight 2 else text
  pyStrip text

/-- The `get_doc_comment` candidate walk: starting from
`node.prev_named_sibling`, skip past `attribute` siblings.  On the explicit
context this is: skip non-named siblings and named `attribute` siblings,
nearest first, and return the first other named sibling. -/
def docCandidate : List TSTree → Option TSTree
  | [] => none
  | c :: rest =>
    if !c.isNamed then docCandidate rest
    else if c.type = "attribute" then docCandidate rest
    else some c

/-- `get_doc_comment(node)`, with `prevSibs` the siblings before `node`,
nearest first: an immediately preceding (attributes skipped) `comment` whose
text starts with `/**` but not `/***` nor `/**<`, cleaned. -/
def getDocComment (prevSibs : List TSTree) : Option String :=
  match docCandidate prevSibs with
  | some c =>
    if c.type = "comment" then
      let text := c.text
      if strStarts text "/**" && !strStarts text "/***"
          && !strStarts text "/**<" then
        some (cleanDocComment text)
      else none
    else none
  | none => none

/-- The fallback walk of `get_trailing_doc_comment`: over the parent's
children after `node` (named or not), return the first `/**<` comment on the
same line as `node`'s end; stop at the first child on a later line. -/
def trailingDocWalk (nodeEndRow : Nat) : List TSTree → Option String
  | [] => none
  | c :: rest =>
    if c.type = "comment" && strStarts c.text "/**<"
        && c.startRow = nodeEndRow then
      some (cleanTrailingDocComment c.text)
    else if c.startRow > nodeEndRow then none
    else trailingDocWalk nodeEndRow rest

/-- `get_trailing_doc_comment(node)`, with `nextSibs` the parent's children
after `node`, in order: first try `node.next_named_sibling`, then fall back to
walking all following siblings on the same line. -/
def getTrailingDocComment (node : TSTree) (nextSibs : List TSTree) :
    Option String :=
  match nextSibs.find? (fun s => s.isNamed) with
  | some sib =>
    if sib.type = "comment" && strStarts sib.text "/**<"
        && sib.startRow = node.endRow then
      some (cleanTrailingDocComment sib.text)
    else trailingDocWalk node.endRow nextSibs
  | none => trailingDocWalk node.endRow nextSibs

/-- `get_field_doc_comment`: preceding doc first, then trailing doc. -/
def getFieldDocComment (prevSibs : List TSTree) (node : TSTree)
    (nextSibs : List TSTree) : Option String :=
  match getDocComment prevSibs with
  | some doc => some doc
  | none => getTrailingDocComment node nextSibs

/-! ### Insertion-ordered association lists (CPython dict model)

`alSet` updates an existing key in place and appends a fresh key at the end;
`alErase` is `dict.pop(k, default)`'s removal; `alGet` is `dict.get`. -/

def alGet {α : Type} : List (String × α) → String → Option α
  | [], _ => none
  | (k, v) :: rest, key => if k = key then some v else alGet rest key

def alSet {α : Type} : List (String × α) → String → α → List (String × α)
  | [], key, v => [(key, v)]
  | (k, w) :: rest, key, v =>
    if k = key then (k, v) :: rest else (k, w) :: alSet rest key v

def alErase {α : Type} : List (String × α) → String → List (String × α)
  | [], _ => []
  | (k, v) :: rest, key =>
    if k = key then rest else (k, v) :: alErase rest key

/-- `d.setdefault(key, []).append(x)` for list-valued dicts. -/
def alAppend {α : Type} (m : List (String × List α)) (key : String) (x : α) :
    List (String × List α) :=
  alSet m key (((alGet m key).getD []) ++ [x])

/-! ### indexer.py: builtin types and the symbol index -/

/-- `BUILTIN_TYPES`: built-in IOP types that are never resolved as
references. -/
def BUILTIN_TYPES : List String :=
  ["int", "uint", "long", "ulong", "byte", "ubyte",
   "short", "ushort", "bool", "double", "bytes", "string",
   "xml", "void"]

/-- `SymbolIndex`: the five derived views over the symbol set plus the
file-to-package map. -/
structure SymbolIndex where
  by_name : List (String × List Symbol) := []
  by_qualified_name : List (String × Symbol) := []
  by_package : List (String × List Symbol) := []
  by_file : List (String × List Symbol) := []
  package_of_file : List (String × String) := []
  by_c_name : List (String × Symbol) := []

def emptyIndex : SymbolIndex := {}

/-- `SymbolIndex.resolve`: resolve a simple or qualified type name.
`current_package = some ""` behaves like `none` (Python truthiness of
`if current_package:`). -/
def SymbolIndex.resolve (idx : SymbolIndex) (name : String)
    (current_package : Option String := none) : Option Symbol :=
  if BUILTIN_TYPES.contains name then none
  else if name.data.contains '.' then
    match alGet idx.by_qualified_name name with
    | some sym => some sym
    | none =>
      match rsplitDot name.data with
      | some (pkg, type_name) =>
        ((alGet idx.by_package (String.mk pkg)).getD []).find?
          (fun s => s.name = String.mk type_name)
      | none => none
  else
    match alGet idx.by_name name with
    | none => none
    | some [] => none
    | some [c] => some c
    | some (c :: cs) =>
      match current_package with
      | some p =>
        if p ≠ "" then
          match (c :: cs).find? (fun x => x.package = p) with
          | some x => some x
          | none => some c
        else some c
      | none => some c

/-- The inner scan of `resolve_enum_value`: first enum in the list containing
the value name, together with the matched value. -/
def findEnumValueIn (syms : List Symbol) (value_name : String) :
    Option (Symbol × EnumValueSymbol) :=
  match syms with
  | [] => none
  | s :: rest =>
    if s.kind = SymbolKind.ENUM then
      match s.enum_values.find? (fun ev => ev.name = value_name) with
      | some ev => some (s, ev)
      | none => findEnumValueIn rest value_name
    else findEnumValueIn rest value_name

/-- The global scan of `resolve_enum_value`: over `by_name.values()` in
insertion order. -/
def findEnumValueAll (buckets : List (String × List Symbol))
    (value_name : String) : Option (Symbol × EnumValueSymbol) :=
  match buckets with
  | [] => none
  | (_, syms) :: rest =>
    match findEnumValueIn syms value_name with
    | some r => some r
    | none => findEnumValueAll rest value_name

/-- `SymbolIndex.resolve_enum_value`: same-package enums first, then all
enums in the workspace. -/
def SymbolIndex.resolve_enum_value (idx : SymbolIndex) (value_name : String)
    (current_package : Option String := none) :
    Option (Symbol × EnumValueSymbol) :=
  let pkgHit :=
    match current_package with
    | some p =>
      if p ≠ "" then
        findEnumValueIn ((alGet idx.by_package p).getD []) value_name
      else none
    | none => none
  match pkgHit with
  | some r => some r
  | none => findEnumValueAll idx.by_name value_name

/-- The canonical-name keys under which `add_symbol` inserts `sym` into
`by_c_name` (and from which `remove_file` pops it): the name derived from the
qualified name, plus — for a truthy `@ctype` override — the override with any
matching known suffix stripped.  Folding `alSet`/`alErase` over this list is
exactly the source's "insert/pop derived, then insert/pop override" order. -/
def cKeys (sym : Symbol) : List String :=
  iop_type_to_c sym.qualified_name ::
    (match sym.ctype with
     | some ct => if ct ≠ "" then [stripCSuffix ct] else []
     | none => [])

/-- `SymbolIndex.add_symbol`: insert into every view; the canonical C-name
view gets a second entry for a (truthy) `@ctype` override, with any known
suffix stripped. -/
def SymbolIndex.add_symbol (idx : SymbolIndex) (sym : Symbol) : SymbolIndex :=
  { by_name := alAppend idx.by_name sym.name sym
    by_qualified_name := alSet idx.by_qualified_name sym.qualified_name sym
    by_package := alAppend idx.by_package sym.package sym
    by_file := alAppend idx.by_file sym.file sym
    package_of_file := idx.package_of_file
    by_c_name := (cKeys sym).foldl (fun m k => alSet m k sym) idx.by_c_name }

/-- The repeated removal pattern of the `remove_file` loop on a list-valued
view: filter the file's symbols out of the bucket at `key`, deleting the key
if the bucket became empty. -/
def bucketRemove (filepath : String) (m : List (String × List Symbol))
    (key : String) : List (String × List Symbol) :=
  let lst := (alGet m key).getD []
  let filtered := lst.filter (fun s => s.file ≠ filepath)
  let m2 := alSet m key filtered
  if filtered.isEmpty then alErase m2 key else m2

/-- One iteration of the `remove_file` loop, for symbol `sym` of file
`filepath` whose package mapping was `pkg` (captured before the loop). -/
def removeSymStep (filepath : String) (pkg : Option String)
    (idx : SymbolIndex) (sym : Symbol) : SymbolIndex :=
  { by_name := bucketRemove filepath idx.by_name sym.name
    by_qualified_name := alErase idx.by_qualified_name sym.qualified_name
    by_package :=
      match pkg with
      | some p =>
        if p ≠ "" then bucketRemove filepath idx.by_package p
        else idx.by_package
      | none => idx.by_package
    by_file := idx.by_file
    package_of_file := idx.package_of_file
    by_c_name := (cKeys sym).foldl alErase idx.by_c_name }

/-- `SymbolIndex.remove_file`: pop the file's symbol list and package
mapping, then remove each of its symbols from the other views. -/
def SymbolIndex.remove_file (idx : SymbolIndex) (filepath : String) :
    SymbolIndex :=
  let symbols := (alGet idx.by_file filepath).getD []
  let pkg := alGet idx.package_of_file filepath
  let idx1 : SymbolIndex :=
    { idx with
      by_file := alErase idx.by_file filepath
      package_of_file := alErase idx.package_of_file filepath }
  symbols.foldl (removeSymStep filepath pkg) idx1

/-- `SymbolIndex.resolve_c_identifier`: strip the first matching known C
suffix and look the base up in the canonical-name view. -/
def SymbolIndex.resolve_c_identifier (idx : SymbolIndex) (c_ident : String) :
    Option Symbol :=
  alGet idx.by_c_name (stripCSuffix c_ident)

/-! ### indexer.py: symbol extraction

The extraction methods of `Indexer`.  Loops over a block's children that need
the current child's sibling context (for doc comments) are written as
recursions carrying the already-visited siblings reversed (`prevRev`, nearest
first) and the remaining ones (`rest`, in order). -/

/-- `_NODE_TYPE_TO_KIND` (the `data_structure_definition` entry, mapped to
`None` in the Python dict, is handled separately in `extract_symbol`). -/
def nodeTypeToKind (t : String) : Option SymbolKind :=
  if t = "class_definition" then some SymbolKind.CLASS
  else if t = "enum_definition" then some SymbolKind.ENUM
  else if t = "interface_definition" then some SymbolKind.INTERFACE
  else if t = "module_definition" then some SymbolKind.MODULE
  else if t = "typedef_definition" then some SymbolKind.TYPEDEF
  else if t = "snmp_object_definition" then some SymbolKind.SNMP_OBJ
  else if t = "snmp_table_definition" then some SymbolKind.SNMP_TBL
  else if t = "snmp_interface_definition" then some SymbolKind.SNMP_IFACE
  else none

/-- `Indexer._extract_ctype`: first `attribute` child named `ctype` that has
an argument list with content yields the stripped content. -/
def extractCtype : List TSTree → Option String
  | [] => none
  | c :: rest =>
    if c.type = "attribute" then
      match findChild c "identifier" with
      | some attr_id =>
        if attr_id.text = "ctype" then
          match findChild c "attribute_argument_list" with
          | some arg_list =>
            match findChild arg_list "attribute_content" with
            | some content => some (pyStrip content.text)
            | none => extractCtype rest
          | none => extractCtype rest
        else extractCtype rest
      | none => extractCtype rest
    else extractCtype rest

/-- `Indexer._extract_fields` loop body for one block child. -/
def extract_field (prevRev : List TSTree) (c : TSTree)
    (nextSibs : List TSTree) : Option FieldSymbol :=
  if c.type = "field" then
    match findChild c "variable" with
    | none => none
    | some var =>
      let type_node := findChild var "type"
      let type_spec := findChild var "type_specifier"
      let id_node := findIdentifier var
      let dfl := findChild var "default_value"
      let type_text := type_node.map TSTree.text
      let type_ref :=
        match type_text with
        | some t =>
          if t ≠ "" && !BUILTIN_TYPES.contains t then some t else none
        | none => none
      some { name := ((id_node.map TSTree.text).getD "")
             type_ref := type_ref
             specifier := type_spec.map TSTree.text
             default_value := dfl.map TSTree.text
             range := match id_node with
               | some idn => nodeRange idn
               | none => nodeRange c
             doc := getFieldDocComment prevRev c nextSibs }
  else none

def fieldsGo (prevRev : List TSTree) : List TSTree → List FieldSymbol
  | [] => []
  | c :: rest =>
    match extract_field prevRev c rest with
    | some f => f :: fieldsGo (c :: prevRev) rest
    | none => fieldsGo (c :: prevRev) rest

/-- `Indexer._extract_fields`. -/
def extract_fields (block : TSTree) : List FieldSymbol :=
  fieldsGo [] block.children

/-- `Indexer._extract_enum_values` loop body for one block child. -/
def extract_enum_value (prevRev : List TSTree) (c : TSTree)
    (nextSibs : List TSTree) : Option EnumValueSymbol :=
  if c.type = "enum_field" then
    let id_node := findIdentifier c
    let dfl := findChild c "default_value"
    let doc :=
      match getFieldDocComment prevRev c nextSibs with
      | some d => some d
      | none => getTrailingDocComment c nextSibs
    some { name := ((id_node.map TSTree.text).getD "")
           value := match dfl with
             | some d => some (pyStrip (pyLStrip ['=', ' '] d.text))
             | none => none
           range := match id_node with
             | some idn => nodeRange idn
             | none => nodeRange c
           doc := doc }
  else none

def enumValuesGo (prevRev : List TSTree) : List TSTree → List EnumValueSymbol
  | [] => []
  | c :: rest =>
    match extract_enum_value prevRev c rest with
    | some v => v :: enumValuesGo (c :: prevRev) rest
    | none => enumValuesGo (c :: prevRev) rest

/-- `Indexer._extract_enum_values`. -/
def extract_enum_values (block : TSTree) : List EnumValueSymbol :=
  enumValuesGo [] block.children

/-- `Indexer._extract_rpc_type_ref`: a single-type reference from an rpc
in/out/throw clause. -/
def extract_rpc_type_ref (rpc_clause : Option TSTree) : Option String :=
  match rpc_clause with
  | none => none
  | some cl =>
    if (findChild cl "argument_list").isSome then none
    else
      match findIdentifier cl with
      | some idn =>
        let text := idn.text
        if text ≠ "" && !BUILTIN_TYPES.contains text
            && text ≠ "null" && text ≠ "void" then
          some text
        else none
      | none => none

/-- `Indexer._extract_rpcs` loop body for one block child. -/
def extract_rpc (prevRev : List TSTree) (c : TSTree) : Option RpcSymbol :=
  if c.type = "rpc" then
    some { name := (((findIdentifier c).map TSTree.text).getD "")
           in_type := extract_rpc_type_ref (findChild c "rpc_in")
           out_type := extract_rpc_type_ref (findChild c "rpc_out")
           throw_type := extract_rpc_type_ref (findChild c "rpc_throw")
           range := match findIdentifier c with
             | some idn => nodeRange idn
             | none => nodeRange c
           doc := getDocComment prevRev }
  else none

def rpcsGo (prevRev : List TSTree) : List TSTree → List RpcSymbol
  | [] => []
  | c :: rest =>
    match extract_rpc prevRev c with
    | some r => r :: rpcsGo (c :: prevRev) rest
    | none => rpcsGo (c :: prevRev) rest

/-- `Indexer._extract_rpcs`. -/
def extract_rpcs (block : TSTree) : List RpcSymbol :=
  rpcsGo [] block.children

/-- `Indexer._extract_module_fields` loop body for one block child. -/
def extract_module_field (prevRev : List TSTree) (c : TSTree)
    (nextSibs : List TSTree) : Option FieldSymbol :=
  if c.type = "module_field" then
    match findChildren c "identifier" with
    | type_id :: name_id :: _ =>
      some { name := name_id.text
             type_ref := some type_id.text
             specifier := none
             default_value := none
             range := nodeRange name_id
             doc := getFieldDocComment prevRev c nextSibs }
    | _ => none
  else none

def moduleFieldsGo (prevRev : List TSTree) : List TSTree → List FieldSymbol
  | [] => []
  | c :: rest =>
    match extract_module_field prevRev c rest with
    | some f => f :: moduleFieldsGo (c :: prevRev) rest
    | none => moduleFieldsGo (c :: prevRev) rest

/-- `Indexer._extract_module_fields`. -/
def extract_module_fields (block : TSTree) : List FieldSymbol :=
  moduleFieldsGo [] block.children

/-- The kind resolution at the top of `_extract_symbol`: the
`data_structure_definition` case inspects the `data_structure_type` child
(struct vs union, absent child means no symbol); every other node type goes
through `_NODE_TYPE_TO_KIND`. -/
def extractKind (node : TSTree) : Option SymbolKind :=
  if node.type = "data_structure_definition" then
    match findChild node "data_structure_type" with
    | some ds =>
      some (if ds.text = "struct" then SymbolKind.STRUCT
            else SymbolKind.UNION)
    | none => none
  else nodeTypeToKind node.type

/-- The name-node resolution of `_extract_symbol`: for a typedef the
identifier sits inside the `variable` child. -/
def extractIdNode (node : TSTree) : Option TSTree :=
  if node.type = "typedef_definition" then
    match findChild node "variable" with
    | some var => findIdentifier var
    | none => none
  else findIdentifier node

/-- `Indexer._extract_symbol`: one top-level declaration to a symbol record.
`prevSibs` are the preceding top-level siblings, nearest first (context for
the doc-comment lookup). -/
def extract_symbol (prevSibs : List TSTree) (node : TSTree)
    (filepath package : String) : Option Symbol :=
  match extractKind node with
  | none => none
  | some kind =>
    match extractIdNode node with
    | none => none
    | some idn =>
      let name := idn.text
      let parent_class :=
        if node.type = "class_definition" then
          (findChildren node "class_inheritance").foldl
            (fun acc inh =>
              match findIdentifier inh with
              | some i => some i.text
              | none => acc)
            none
        else none
      let fields :=
        if kind = SymbolKind.STRUCT ∨ kind = SymbolKind.UNION
            ∨ kind = SymbolKind.SNMP_OBJ ∨ kind = SymbolKind.SNMP_TBL
            ∨ kind = SymbolKind.CLASS then
          match findChild node "data_structure_block" with
          | some block => extract_fields block
          | none => []
        else if kind = SymbolKind.MODULE then
          match findChild node "module_block" with
          | some block => extract_module_fields block
          | none => []
        else []
      let enum_values :=
        if kind = SymbolKind.ENUM then
          match findChild node "enum_block" with
          | some block => extract_enum_values block
          | none => []
        else []
      let rpcs :=
        if kind = SymbolKind.INTERFACE then
          match findChild node "rpc_block" with
          | some block => extract_rpcs block
          | none => []
        else []
      let typedef_source :=
        if kind = SymbolKind.TYPEDEF then
          match findChild node "variable" with
          | some var => (findChild var "type").map TSTree.text
          | none => none
        else none
      some { name := name
             qualified_name := package ++ "." ++ name
             kind := kind
             file := filepath
             range := nodeRange idn
             doc := getDocComment prevSibs
             package := package
             parent_class := parent_class
             fields := fields
             enum_values := enum_values
             rpcs := rpcs
             typedef_source := typedef_source
             ctype := extractCtype node.children }

/-- The package-extraction loop of `Indexer._index_source`: the identifier
text of the first `package_definition` child, if any. -/
def findPackage (children : List TSTree) : Option String :=
  match children.find? (fun c => c.type = "package_definition") with
  | some pd => (findIdentifier pd).map TSTree.text
  | none => none

/-- The type-definition loop of `Indexer._index_source`. -/
def indexChildren (filepath package : String) (idx : SymbolIndex)
    (prevRev : List TSTree) : List TSTree → SymbolIndex
  | [] => idx
  | c :: rest =>
    match extract_symbol prevRev c filepath package with
    | some s =>
      indexChildren filepath package (idx.add_symbol s) (c :: prevRev) rest
    | none => indexChildren filepath package idx (c :: prevRev) rest

/-- `Indexer._index_source`, taking the parse result `root` (the parser is an
external collaborator): extract the package, record the file's package
mapping, extract and add every top-level symbol.  Without a package
declaration the file contributes nothing. -/
def indexSourceTree (idx : SymbolIndex) (filepath : String) (root : TSTree) :
    SymbolIndex :=
  match findPackage root.children with
  | none => idx
  | some package =>
    let idx : SymbolIndex :=
      { idx with
        package_of_file := alSet idx.package_of_file filepath package }
    indexChildren filepath package idx [] root.children

/-- `Indexer.index_source`: remove the file's old symbols, then index the
parsed content. -/
def index_source (idx : SymbolIndex) (filepath : String) (root : TSTree) :
    SymbolIndex :=
  indexSourceTree (idx.remove_file filepath) filepath root

/-- `Indexer.index_file`: remove the file's old symbols first, then read and
parse; `readResult = none` models a failed file read (`OSError`), which is
logged and otherwise just returns. -/
def index_file (idx : SymbolIndex) (filepath : String)
    (readResult : Option TSTree) : SymbolIndex :=
  let idx := idx.remove_file filepath
  match readResult with
  | none => idx
  | some root => indexSourceTree idx filepath root

/-! ### Specification-side notions: view membership and well-formedness -/

/-- Keys of an association list are pairwise distinct (true of every CPython
dict model reachable through `alSet`/`alErase`). -/
def NodupKeys {α : Type} (m : List (String × α)) : Prop :=
  (m.map Prod.fst).Nodup

/-- All six dicts of the index have distinct keys. -/
def NodupIdx (idx : SymbolIndex) : Prop :=
  NodupKeys idx.by_name ∧ NodupKeys idx.by_qualified_name ∧
  NodupKeys idx.by_package ∧ NodupKeys idx.by_file ∧
  NodupKeys idx.package_of_file ∧ NodupKeys idx.by_c_name

/-- The symbol list the `remove_file` loop iterates over. -/
def fileSyms (idx : SymbolIndex) (filepath : String) : List Symbol :=
  (alGet idx.by_file filepath).getD []

/-- The `by_package` bucket key that `remove_file` cleans, `none` when the
popped package mapping is missing or empty (Python `if pkg:`). -/
def pkgKey : Option String → Option String
  | some p => if p = "" then none else some p
  | none => none

/-- The effect of `bucketRemove` on the bucket at its own key, at the level
of `alGet` results. -/
def optBucketRemove (filepath : String) (o : Option (List Symbol)) :
    Option (List Symbol) :=
  let filtered := (o.getD []).filter (fun s => s.file ≠ filepath)
  if filtered.isEmpty then none else some filtered

/-- `s` belongs to the symbol set of the index (the `by_file` view is the
store that drives removal, so it defines the symbol set). -/
def InIndex (idx : SymbolIndex) (s : Symbol) : Prop :=
  ∃ l, alGet idx.by_file s.file = some l ∧ s ∈ l

/-- `s` occurs somewhere in at least one index view. -/
def InAnyView (idx : SymbolIndex) (s : Symbol) : Prop :=
  (∃ n l, alGet idx.by_name n = some l ∧ s ∈ l) ∨
  (∃ q, alGet idx.by_qualified_name q = some s) ∨
  (∃ p l, alGet idx.by_package p = some l ∧ s ∈ l) ∨
  (∃ g l, alGet idx.by_file g = some l ∧ s ∈ l) ∨
  (∃ k, alGet idx.by_c_name k = some s)

/-- `s` is present in every view under its own keys, including the canonical
generated name and the second canonical entry of a (truthy) explicit `@ctype`
override. -/
def InAllViews (idx : SymbolIndex) (s : Symbol) : Prop :=
  s ∈ (alGet idx.by_name s.name).getD [] ∧
  alGet idx.by_qualified_name s.qualified_name = some s ∧
  s ∈ (alGet idx.by_package s.package).getD [] ∧
  s ∈ (alGet idx.by_file s.file).getD [] ∧
  alGet idx.by_c_name (iop_type_to_c s.qualified_name) = some s ∧
  (∀ ct, s.ctype = some ct → ct ≠ "" →
    alGet idx.by_c_name (stripCSuffix ct) = some s)

/-- Soundness well-formedness of a `SymbolIndex`: every view entry sits under
the right key and comes from the symbol set, the file-to-package map agrees
with the stored symbols, packages are truthy, list buckets are nonempty, and
every dict has distinct keys.  Preserved by the indexer's operations with no
freshness assumptions. -/
structure WFS (idx : SymbolIndex) : Prop where
  nodups : NodupIdx idx
  file_key : ∀ f l, alGet idx.by_file f = some l → ∀ s ∈ l, s.file = f
  name_key : ∀ n l, alGet idx.by_name n = some l →
    l ≠ [] ∧ ∀ s ∈ l, s.name = n ∧ InIndex idx s
  pkg_key : ∀ p l, alGet idx.by_package p = some l →
    l ≠ [] ∧ ∀ s ∈ l, s.package = p ∧ InIndex idx s
  qn_key : ∀ q s, alGet idx.by_qualified_name q = some s →
    q = s.qualified_name ∧ InIndex idx s
  c_key : ∀ k s, alGet idx.by_c_name k = some s →
    InIndex idx s ∧ k ∈ cKeys s
  pof_key : ∀ f l, alGet idx.by_file f = some l → ∀ s ∈ l,
    alGet idx.package_of_file f = some s.package
  pkg_truthy : ∀ f l, alGet idx.by_file f = some l → ∀ s ∈ l, s.package ≠ ""

/-- Full well-formedness: soundness plus completeness (every stored symbol is
present in every applicable view).  Completeness additionally needs the
freshness of qualified and canonical names on insertion. -/
structure WF (idx : SymbolIndex) extends WFS idx : Prop where
  complete : ∀ s, InIndex idx s → InAllViews idx s

/-- View-level equivalence of two indexes: the same lookup results (hence the
same entries and the same candidate order in the list-valued views). -/
def ViewEquiv (a b : SymbolIndex) : Prop :=
  (∀ k, alGet a.by_name k = alGet b.by_name k) ∧
  (∀ k, alGet a.by_qualified_name k = alGet b.by_qualified_name k) ∧
  (∀ k, alGet a.by_package k = alGet b.by_package k) ∧
  (∀ k, alGet a.by_file k = alGet b.by_file k) ∧
  (∀ k, alGet a.package_of_file k = alGet b.package_of_file k) ∧
  (∀ k, alGet a.by_c_name k = alGet b.by_c_name k)

/-- The list of symbols the type-definition loop of `_index_source` extracts
(in order), starting from sibling context `prevRev`. -/
def extractedSymsGo (filepath package : String) (prevRev : List TSTree) :
    List TSTree → List Symbol
  | [] => []
  | c :: rest =>
    match extract_symbol prevRev c filepath package with
    | some s => s :: extractedSymsGo filepath package (c :: prevRev) rest
    | none => extractedSymsGo filepath package (c :: prevRev) rest

def extractedSyms (filepath package : String) (root : TSTree) : List Symbol :=
  extractedSymsGo filepath package [] root.children

/-- The last element of the list satisfying `p` (Python dict "last write
wins" on repeated keys). -/
def lastMatch (p : Symbol → Prop) [DecidablePred p] : List Symbol → Option Symbol
  | [] => none
  | s :: rest =>
    match lastMatch p rest with
    | some r => some r
    | none => if p s then some s else none

/-! ### Operation sequences on the index

The mutating operations `SymbolIndex` exposes, plus the package-mapping
write that `_index_source` performs before adding a file's symbols. -/

inductive IndexOp where
  | add (s : Symbol)
  | removeFile (f : String)
  | setPackage (f : String) (p : String)

def applyOp (idx : SymbolIndex) : IndexOp → SymbolIndex
  | .add s => idx.add_symbol s
  | .removeFile f => idx.remove_file f
  | .setPackage f p =>
    { idx with package_of_file := alSet idx.package_of_file f p }

/-- Freshness of a symbol about to be added, as maintained by the indexer:
its file's package mapping is recorded and truthy, and its qualified name and
canonical names do not collide with existing entries. -/
def Fresh (idx : SymbolIndex) (s : Symbol) : Prop :=
  alGet idx.package_of_file s.file = some s.package ∧
  s.package ≠ "" ∧
  alGet idx.by_qualified_name s.qualified_name = none ∧
  alGet idx.by_c_name (iop_type_to_c s.qualified_name) = none ∧
  (∀ ct, s.ctype = some ct → ct ≠ "" →
    stripCSuffix ct = iop_type_to_c s.qualified_name ∨
    alGet idx.by_c_name (stripCSuffix ct) = none)

def ValidOp (idx : SymbolIndex) : IndexOp → Prop
  | .add s => Fresh idx s
  | .removeFile _ => True
  | .setPackage f p => alGet idx.by_file f = none ∧ p ≠ ""

def ValidOps : SymbolIndex → List IndexOp → Prop
  | _, [] => True
  | idx, op :: rest => ValidOp idx op ∧ ValidOps (applyOp idx op) rest

def runOps (ops : List IndexOp) : SymbolIndex :=
  ops.foldl applyOp emptyIndex

/-! ### Concrete syntax-tree fixtures for the example-based claims -/

def idNode (s : String) : TSTree := .node "identifier" s true 0 0 0 0 []

def typeNode (s : String) : TSTree := .node "type" s true 0 0 0 0 []

def fieldNode (t n : String) : TSTree :=
  .node "field" "" true 0 0 0 0
    [.node "variable" "" true 0 0 0 0 [typeNode t, idNode n]]

def structNode (n : String) (fs : List TSTree) : TSTree :=
  .node "data_structure_definition" "" true 0 0 0 0
    [.node "data_structure_type" "struct" true 0 0 0 0 [], idNode n,
     .node "data_structure_block" "" true 0 0 0 0 fs]

def enumNode (n : String) (vals : List String) : TSTree :=
  .node "enum_definition" "" true 0 0 0 0
    [idNode n,
     .node "enum_block" "" true 0 0 0 0
       (vals.map (fun v => .node "enum_field" v true 0 0 0 0 [idNode v]))]

def pkgNode (p : String) : TSTree :=
  .node "package_definition" "" true 0 0 0 0 [idNode p]

def rootNode (cs : List TSTree) : TSTree :=
  .node "source_file" "" true 0 0 0 0 cs

/-- `package foo; struct Common {};` -/
def fileFooCommon : TSTree := rootNode [pkgNode "foo", structNode "Common" []]

/-- `package bar; struct Common {};` -/
def fileBarCommon : TSTree := rootNode [pkgNode "bar", structNode "Common" []]

/-- The two-package `Common` workspace of the disambiguation example. -/
def idxFooBar : SymbolIndex :=
  index_source (index_source emptyIndex "/a.iop" fileFooCommon)
    "/b.iop" fileBarCommon

/-- `package pkgB; enum EB { X };` indexed first, then
`package pkgA; enum EA { X };`. -/
def idxTwoEnums : SymbolIndex :=
  index_source
    (index_source emptyIndex "/pb.iop" (rootNode [pkgNode "pkgB", enumNode "EB" ["X"]]))
    "/pa.iop" (rootNode [pkgNode "pkgA", enumNode "EA" ["X"]])

/-- A bare symbol used to exercise `add_symbol`/`remove_file` directly. -/
def symAX : Symbol :=
  { name := "X", qualified_name := "a.X", kind := SymbolKind.STRUCT
    file := "/f.iop", range := ⟨0, 0, 0, 0⟩, doc := none
    package := "a", parent_class := none }

/-- `package foo; struct Other {};` -/
def fileFooOther : TSTree := rootNode [pkgNode "foo", structNode "Other" []]

/-- The symbol `_extract_symbol` produces for `struct Common {}` in package
`foo` of `/a.iop` (all fixture nodes sit at position zero). -/
def symFooCommon : Symbol :=
  { name := "Common", qualified_name := "foo.Common"
    kind := SymbolKind.STRUCT, file := "/a.iop", range := ⟨0, 0, 0, 0⟩
    doc := none, package := "foo", parent_class := none }

/-- The symbol extracted for `struct Other {}` in package `foo` of
`/a.iop`. -/
def symFooOther : Symbol :=
  { name := "Other", qualified_name := "foo.Other"
    kind := SymbolKind.STRUCT, file := "/a.iop", range := ⟨0, 0, 0, 0⟩
    doc := none, package := "foo", parent_class := none }

/-- A `data_structure_block` holding `Color c;` and `int x;`. -/
def blockColorInt : TSTree :=
  .node "data_structure_block" "" true 0 0 0 0
    [fieldNode "Color" "c", fieldNode "int" "x"]

/-- The field record extracted for `Color c;` (non-builtin type). -/
def fldColor : FieldSymbol :=
  { name := "c", type_ref := some "Color", specifier := none
    default_value := none, range := ⟨0, 0, 0, 0⟩, doc := none }

/-- The field record extracted for `int x;` (builtin type). -/
def fldInt : FieldSymbol :=
  { name := "x", type_ref := none, specifier := none
    default_value := none, range := ⟨0, 0, 0, 0⟩, doc := none }

/-- The symbol extracted for `struct Common {}` in package `bar` of
`/b.iop`. -/
def symBarCommon : Symbol :=
  { name := "Common", qualified_name := "bar.Common"
    kind := SymbolKind.STRUCT, file := "/b.iop", range := ⟨0, 0, 0, 0⟩
    doc := none, package := "bar", parent_class := none }

/-- The enum value `X` as extracted from the fixture enum nodes. -/
def evX : EnumValueSymbol :=
  { name := "X", value := none, range := ⟨0, 0, 0, 0⟩, doc := none }

/-- The symbol extracted for `enum EA { X }` in package `pkgA` of
`/pa.iop`. -/
def symEnumEA : Symbol :=
  { name := "EA", qualified_name := "pkgA.EA", kind := SymbolKind.ENUM
    file := "/pa.iop", range := ⟨0, 0, 0, 0⟩, doc := none
    package := "pkgA", parent_class := none, enum_values := [evX] }

/-! ## Theorems -/

/-! ### Association-list lemmas -/

theorem alGet_not_mem {α : Type} (m : List (String × α)) (k : String)
    (h : k ∉ m.map Prod.fst) : alGet m k = none := by
  induction m with
  | nil => rfl
  | cons kv rest ih =>
    obtain ⟨k1, v1⟩ := kv
    simp only [List.map_cons, List.mem_cons, not_or] at h
    simp only [alGet, if_neg (fun he : k1 = k => h.1 he.symm)]
    exact ih h.2

theorem alGet_alSet {α : Type} (m : List (String × α)) (k : String) (v : α)
    (q : String) :
    alGet (alSet m k v) q = if q = k then some v else alGet m q := by
  induction m with
  | nil =>
    simp only [alSet, alGet]
    by_cases hq : k = q
    · rw [if_pos hq, if_pos hq.symm]
    · rw [if_neg hq, if_neg (fun h : q = k => hq h.symm)]
  | cons kv rest ih =>
    obtain ⟨k1, v1⟩ := kv
    simp only [alSet]
    by_cases h1 : k1 = k
    · rw [if_pos h1]
      simp only [alGet]
      by_cases hq : k1 = q
      · rw [if_pos hq, if_pos (hq.symm.trans h1)]
      · have hqk : ¬ q = k := fun h => hq (h1.trans h.symm)
        rw [if_neg hq, if_neg hqk, if_neg hq]
    · rw [if_neg h1]
      simp only [alGet]
      by_cases hq : k1 = q
      · have hqk : ¬ q = k := fun h => h1 (hq.trans h)
        rw [if_pos hq, if_neg hqk, if_pos hq]
      · rw [if_neg hq, if_neg hq, ih]

theorem keys_alSet {α : Type} (m : List (String × α)) (k : String) (v : α)
    (a : String) :
    a ∈ (alSet m k v).map Prod.fst ↔ a ∈ m.map Prod.fst ∨ a = k := by
  induction m with
  | nil => simp [alSet]
  | cons kv rest ih =>
    obtain ⟨k1, v1⟩ := kv
    simp only [alSet]
    by_cases h1 : k1 = k
    · rw [if_pos h1]
      subst h1
      simp only [List.map_cons, List.mem_cons]
      tauto
    · rw [if_neg h1]
      simp only [List.map_cons, List.mem_cons, ih]
      tauto

theorem nodup_alSet {α : Type} (m : List (String × α)) (k : String) (v : α)
    (h : NodupKeys m) : NodupKeys (alSet m k v) := by
  induction m with
  | nil => simp [alSet, NodupKeys]
  | cons kv rest ih =>
    obtain ⟨k1, v1⟩ := kv
    simp only [NodupKeys, List.map_cons, List.nodup_cons] at h
    simp only [alSet]
    by_cases h1 : k1 = k
    · rw [if_pos h1]
      simp only [NodupKeys, List.map_cons, List.nodup_cons]
      exact ⟨h.1, h.2⟩
    · rw [if_neg h1]
      simp only [NodupKeys, List.map_cons, List.nodup_cons]
      refine ⟨?_, ih h.2⟩
      intro hmem
      rcases (keys_alSet rest k v k1).mp hmem with h2 | h2
      · exact h.1 h2
      · exact h1 h2

theorem alErase_sublist {α : Type} (m : List (String × α)) (k : String) :
    (alErase m k).Sublist m := by
  induction m with
  | nil => simp [alErase]
  | cons kv rest ih =>
    obtain ⟨k1, v1⟩ := kv
    simp only [alErase]
    by_cases h1 : k1 = k
    · rw [if_pos h1]
      exact List.sublist_cons_self (k1, v1) rest
    · rw [if_neg h1]
      exact ih.cons₂ _

theorem nodup_alErase {α : Type} (m : List (String × α)) (k : String)
    (h : NodupKeys m) : NodupKeys (alErase m k) :=
  List.Nodup.sublist ((alErase_sublist m k).map Prod.fst) h

theorem alGet_alErase {α : Type} (m : List (String × α)) (k : String)
    (h : NodupKeys m) (q : String) :
    alGet (alErase m k) q = if q = k then none else alGet m q := by
  induction m with
  | nil => simp [alErase, alGet]
  | cons kv rest ih =>
    obtain ⟨k1, v1⟩ := kv
    simp only [NodupKeys, List.map_cons, List.nodup_cons] at h
    simp only [alErase]
    by_cases h1 : k1 = k
    · rw [if_pos h1]
      by_cases hq : q = k
      · rw [if_pos hq]
        apply alGet_not_mem
        rw [hq, ← h1]
        exact h.1
      · rw [if_neg hq]
        simp only [alGet]
        rw [if_neg (fun he : k1 = q => hq (he.symm.trans h1))]
    · rw [if_neg h1]
      simp only [alGet]
      by_cases hq : k1 = q
      · have hqk : ¬ q = k := fun hk => h1 (hq.trans hk)
        rw [if_pos hq, if_neg hqk, if_pos hq]
      · simp only [if_neg hq]
        rw [ih h.2]

theorem alGet_alAppend {α : Type} (m : List (String × List α)) (k : String)
    (x : α) (q : String) :
    alGet (alAppend m k x) q =
      if q = k then some (((alGet m k).getD []) ++ [x]) else alGet m q := by
  simp [alAppend, alGet_alSet]

theorem nodup_alAppend {α : Type} (m : List (String × List α)) (k : String)
    (x : α) (h : NodupKeys m) : NodupKeys (alAppend m k x) :=
  nodup_alSet _ _ _ h

/-! ### Fold characterizations -/

theorem keysEraseFold {α : Type} :
    ∀ (keys : List String) (m : List (String × α)), NodupKeys m →
      NodupKeys (keys.foldl alErase m) ∧
      ∀ q, alGet (keys.foldl alErase m) q =
        if q ∈ keys then none else alGet m q := by
  intro keys
  induction keys with
  | nil => intro m h; exact ⟨h, fun q => by simp⟩
  | cons k rest ih =>
    intro m h
    obtain ⟨hnd, hget⟩ := ih (alErase m k) (nodup_alErase m k h)
    refine ⟨hnd, fun q => ?_⟩
    rw [List.foldl_cons, hget q, alGet_alErase m k h q]
    by_cases h1 : q ∈ rest
    · simp [h1]
    · by_cases h2 : q = k
      · simp [h1, h2]
      · simp [h1, h2]

theorem keysSetFold {α : Type} (v : α) :
    ∀ (keys : List String) (m : List (String × α)), NodupKeys m →
      NodupKeys (keys.foldl (fun m2 k => alSet m2 k v) m) ∧
      ∀ q, alGet (keys.foldl (fun m2 k => alSet m2 k v) m) q =
        if q ∈ keys then some v else alGet m q := by
  intro keys
  induction keys with
  | nil => intro m h; exact ⟨h, fun q => by simp⟩
  | cons k rest ih =>
    intro m h
    obtain ⟨hnd, hget⟩ := ih (alSet m k v) (nodup_alSet m k v h)
    refine ⟨hnd, fun q => ?_⟩
    rw [List.foldl_cons, hget q, alGet_alSet m k v q]
    by_cases h1 : q ∈ rest
    · simp [h1]
    · by_cases h2 : q = k
      · simp [h1, h2]
      · simp [h1, h2]

theorem optBucketRemove_eq (f : String) (o : Option (List Symbol)) :
    optBucketRemove f o =
      if ((o.getD []).filter (fun s => s.file ≠ f)).isEmpty then none
      else some ((o.getD []).filter (fun s => s.file ≠ f)) := rfl

theorem bucketRemove_char (f key : String) (m : List (String × List Symbol))
    (h : NodupKeys m) :
    NodupKeys (bucketRemove f m key) ∧
    ∀ q, alGet (bucketRemove f m key) q =
      if q = key then optBucketRemove f (alGet m key) else alGet m q := by
  by_cases he : (((alGet m key).getD []).filter (fun s => s.file ≠ f)).isEmpty
  · have hbr : bucketRemove f m key =
        alErase (alSet m key
          (((alGet m key).getD []).filter (fun s => s.file ≠ f))) key := by
      simp only [bucketRemove]
      rw [if_pos he]
    rw [hbr]
    refine ⟨nodup_alErase _ _ (nodup_alSet _ _ _ h), fun q => ?_⟩
    rw [alGet_alErase _ _ (nodup_alSet _ _ _ h) q, optBucketRemove_eq,
      if_pos he]
    by_cases hq : q = key
    · rw [if_pos hq, if_pos hq]
    · rw [if_neg hq, if_neg hq, alGet_alSet, if_neg hq]
  · have hbr : bucketRemove f m key =
        alSet m key (((alGet m key).getD []).filter (fun s => s.file ≠ f)) := by
      simp only [bucketRemove]
      rw [if_neg he]
    rw [hbr]
    refine ⟨nodup_alSet _ _ _ h, fun q => ?_⟩
    rw [alGet_alSet, optBucketRemove_eq, if_neg he]

theorem optBucketRemove_idem (f : String) (o : Option (List Symbol)) :
    optBucketRemove f (optBucketRemove f o) = optBucketRemove f o := by
  by_cases he : ((o.getD []).filter (fun s => s.file ≠ f)).isEmpty
  · rw [optBucketRemove_eq f o, if_pos he, optBucketRemove_eq f none]
    rfl
  · rw [optBucketRemove_eq f o, if_neg he, optBucketRemove_eq,
      Option.getD_some, List.filter_filter]
    have hff : ((o.getD []).filter
        (fun s => decide (s.file ≠ f) && decide (s.file ≠ f))) =
        ((o.getD []).filter (fun s => s.file ≠ f)) := by
      congr 1
      funext s
      rw [Bool.and_self]
    rw [hff, if_neg he]

/-- Generic characterization of a fold whose every step either applies an
idempotent transformation `F` at one lookup key or leaves the lookup
unchanged. -/
theorem idemFold_char {γ : Type} (F : Option γ → Option γ)
    (hF : ∀ o, F (F o) = F o)
    (step : List (String × γ) → Symbol → List (String × γ))
    (P : String → Symbol → Prop) [∀ q s, Decidable (P q s)]
    (hstep : ∀ m s, NodupKeys m → NodupKeys (step m s) ∧
      ∀ q, alGet (step m s) q = if P q s then F (alGet m q) else alGet m q) :
    ∀ (ss : List Symbol) (m : List (String × γ)), NodupKeys m →
      NodupKeys (ss.foldl step m) ∧
      ∀ q, alGet (ss.foldl step m) q =
        if ∃ s ∈ ss, P q s then F (alGet m q) else alGet m q := by
  intro ss
  induction ss with
  | nil => intro m h; exact ⟨h, fun q => by simp⟩
  | cons s rest ih =>
    intro m h
    obtain ⟨hnd1, hget1⟩ := hstep m s h
    obtain ⟨hnd, hget⟩ := ih (step m s) hnd1
    refine ⟨hnd, fun q => ?_⟩
    rw [List.foldl_cons, hget q, hget1 q]
    by_cases h1 : ∃ t ∈ rest, P q t
    · rw [if_pos h1]
      by_cases h2 : P q s
      · rw [if_pos h2, hF]
        rw [if_pos ⟨s, List.mem_cons_self s rest, h2⟩]
      · rw [if_neg h2]
        obtain ⟨t, ht, hPt⟩ := h1
        rw [if_pos ⟨t, List.mem_cons_of_mem s ht, hPt⟩]
    · rw [if_neg h1]
      by_cases h2 : P q s
      · rw [if_pos h2, if_pos ⟨s, List.mem_cons_self s rest, h2⟩]
      · rw [if_neg h2, if_neg ?_]
        rintro ⟨t, ht, hPt⟩
        rcases List.mem_cons.mp ht with rfl | ht2
        · exact h2 hPt
        · exact h1 ⟨t, ht2, hPt⟩

/-- Generic characterization of a keyed append fold. -/
theorem appendFold_char (keyfn : Symbol → String) :
    ∀ (ss : List Symbol) (m : List (String × List Symbol)), NodupKeys m →
      NodupKeys (ss.foldl (fun m2 s => alAppend m2 (keyfn s) s) m) ∧
      ∀ q, alGet (ss.foldl (fun m2 s => alAppend m2 (keyfn s) s) m) q =
        if ss.filter (fun s => keyfn s = q) = [] then alGet m q
        else some ((alGet m q).getD [] ++ ss.filter (fun s => keyfn s = q)) := by
  intro ss
  induction ss with
  | nil => intro m h; exact ⟨h, fun q => by simp⟩
  | cons s rest ih =>
    intro m h
    obtain ⟨hnd, hget⟩ := ih (alAppend m (keyfn s) s) (nodup_alAppend _ _ _ h)
    refine ⟨hnd, fun q => ?_⟩
    rw [List.foldl_cons, hget q, alGet_alAppend m (keyfn s) s q]
    by_cases h2 : keyfn s = q
    · have hq : q = keyfn s := h2.symm
      have hif : (if q = keyfn s
            then some ((alGet m (keyfn s)).getD [] ++ [s])
            else alGet m q) =
          some ((alGet m (keyfn s)).getD [] ++ [s]) := if_pos hq
      rw [hif]
      have hfil : (s :: rest).filter (fun t => keyfn t = q) =
          s :: rest.filter (fun t => keyfn t = q) := by
        simp [List.filter_cons, h2]
      rw [hfil, if_neg (List.cons_ne_nil s _)]
      by_cases h1 : rest.filter (fun t => keyfn t = q) = []
      · rw [if_pos h1, h1, hq]
      · rw [if_neg h1, Option.getD_some, List.append_assoc,
          List.singleton_append, hq]
    · have hq : ¬ q = keyfn s := fun he => h2 he.symm
      have hif : (if q = keyfn s
            then some ((alGet m (keyfn s)).getD [] ++ [s])
            else alGet m q) =
          alGet m q := if_neg hq
      rw [hif]
      have hfil : (s :: rest).filter (fun t => keyfn t = q) =
          rest.filter (fun t => keyfn t = q) := by
        simp [List.filter_cons, h2]
      rw [hfil]

/-- Generic characterization of a fold whose every step writes the symbol
itself at keys selected by `P`: the last matching symbol wins. -/
theorem setLikeFold_char
    (step : List (String × Symbol) → Symbol → List (String × Symbol))
    (P : String → Symbol → Prop) [∀ q s, Decidable (P q s)]
    (hstep : ∀ m s, NodupKeys m → NodupKeys (step m s) ∧
      ∀ q, alGet (step m s) q = if P q s then some s else alGet m q) :
    ∀ (ss : List Symbol) (m : List (String × Symbol)), NodupKeys m →
      NodupKeys (ss.foldl step m) ∧
      ∀ q, alGet (ss.foldl step m) q =
        match lastMatch (fun s => P q s) ss with
        | some r => some r
        | none => alGet m q := by
  intro ss
  induction ss with
  | nil => intro m h; exact ⟨h, fun q => by simp [lastMatch]⟩
  | cons s rest ih =>
    intro m h
    obtain ⟨hnd1, hget1⟩ := hstep m s h
    obtain ⟨hnd, hget⟩ := ih (step m s) hnd1
    refine ⟨hnd, fun q => ?_⟩
    rw [List.foldl_cons, hget q, hget1 q]
    simp only [lastMatch]
    cases hlast : lastMatch (fun t => P q t) rest with
    | some r => rfl
    | none =>
      by_cases h2 : P q s
      · rw [if_pos h2, if_pos h2]
      · rw [if_neg h2, if_neg h2]

/-! ### Component decomposition of the indexer folds -/

theorem removeSymStep_by_package (f : String) (pkg : Option String)
    (idx : SymbolIndex) (s : Symbol) :
    (removeSymStep f pkg idx s).by_package =
      match pkgKey pkg with
      | some p => bucketRemove f idx.by_package p
      | none => idx.by_package := by
  cases pkg with
  | none => rfl
  | some p =>
    by_cases hp : p = ""
    · subst hp; rfl
    · show (if p ≠ "" then bucketRemove f idx.by_package p
          else idx.by_package) = _
      simp only [pkgKey]
      rw [if_pos hp, if_neg hp]

theorem removeFold_components (f : String) (pkg : Option String) :
    ∀ (ss : List Symbol) (idx : SymbolIndex),
      (ss.foldl (removeSymStep f pkg) idx).by_name =
        ss.foldl (fun m s => bucketRemove f m s.name) idx.by_name ∧
      (ss.foldl (removeSymStep f pkg) idx).by_qualified_name =
        ss.foldl (fun m s => alErase m s.qualified_name)
          idx.by_qualified_name ∧
      (ss.foldl (removeSymStep f pkg) idx).by_package =
        ss.foldl (fun m _ =>
          match pkgKey pkg with
          | some p => bucketRemove f m p
          | none => m) idx.by_package ∧
      (ss.foldl (removeSymStep f pkg) idx).by_file = idx.by_file ∧
      (ss.foldl (removeSymStep f pkg) idx).package_of_file =
        idx.package_of_file ∧
      (ss.foldl (removeSymStep f pkg) idx).by_c_name =
        ss.foldl (fun m s => (cKeys s).foldl alErase m) idx.by_c_name := by
  intro ss
  induction ss with
  | nil => intro idx; exact ⟨rfl, rfl, rfl, rfl, rfl, rfl⟩
  | cons s rest ih =>
    intro idx
    obtain ⟨h1, h2, h3, h4, h5, h6⟩ := ih (removeSymStep f pkg idx s)
    simp only [List.foldl_cons]
    exact ⟨h1, h2, by rw [h3, removeSymStep_by_package], h4, h5, h6⟩

theorem addFold_components :
    ∀ (ss : List Symbol) (idx : SymbolIndex),
      (ss.foldl SymbolIndex.add_symbol idx).by_name =
        ss.foldl (fun m s => alAppend m s.name s) idx.by_name ∧
      (ss.foldl SymbolIndex.add_symbol idx).by_qualified_name =
        ss.foldl (fun m s => alSet m s.qualified_name s)
          idx.by_qualified_name ∧
      (ss.foldl SymbolIndex.add_symbol idx).by_package =
        ss.foldl (fun m s => alAppend m s.package s) idx.by_package ∧
      (ss.foldl SymbolIndex.add_symbol idx).by_file =
        ss.foldl (fun m s => alAppend m s.file s) idx.by_file ∧
      (ss.foldl SymbolIndex.add_symbol idx).package_of_file =
        idx.package_of_file ∧
      (ss.foldl SymbolIndex.add_symbol idx).by_c_name =
        ss.foldl (fun m s => (cKeys s).foldl (fun m2 k => alSet m2 k s) m)
          idx.by_c_name := by
  intro ss
  induction ss with
  | nil => intro idx; exact ⟨rfl, rfl, rfl, rfl, rfl, rfl⟩
  | cons s rest ih =>
    intro idx
    obtain ⟨h1, h2, h3, h4, h5, h6⟩ := ih (idx.add_symbol s)
    simp only [List.foldl_cons]
    exact ⟨h1, h2, h3, h4, h5, h6⟩

/-! ### The remove_file loop, view by view -/

theorem nameBucketFold_char (f : String) (ss : List Symbol)
    (m : List (String × List Symbol)) (hm : NodupKeys m) :
    NodupKeys (ss.foldl (fun m2 s => bucketRemove f m2 s.name) m) ∧
    ∀ q, alGet (ss.foldl (fun m2 s => bucketRemove f m2 s.name) m) q =
      if ∃ s ∈ ss, q = s.name then optBucketRemove f (alGet m q)
      else alGet m q :=
  idemFold_char (optBucketRemove f) (optBucketRemove_idem f)
    (fun m2 s => bucketRemove f m2 s.name) (fun q s => q = s.name)
    (fun m2 s hm2 => ⟨(bucketRemove_char f s.name m2 hm2).1, fun q => by
      rw [(bucketRemove_char f s.name m2 hm2).2 q]
      by_cases hq : q = s.name
      · rw [if_pos hq, if_pos hq, hq]
      · rw [if_neg hq, if_neg hq]⟩)
    ss m hm

theorem qnEraseFold_char (ss : List Symbol)
    (m : List (String × Symbol)) (hm : NodupKeys m) :
    NodupKeys (ss.foldl (fun m2 s => alErase m2 s.qualified_name) m) ∧
    ∀ q, alGet (ss.foldl (fun m2 s => alErase m2 s.qualified_name) m) q =
      if ∃ s ∈ ss, q = s.qualified_name then none else alGet m q :=
  idemFold_char (fun _ => none) (fun _ => rfl)
    (fun m2 s => alErase m2 s.qualified_name)
    (fun q s => q = s.qualified_name)
    (fun m2 s hm2 => ⟨nodup_alErase m2 s.qualified_name hm2, fun q => by
      rw [alGet_alErase m2 s.qualified_name hm2 q]⟩)
    ss m hm

theorem cEraseFold_char (ss : List Symbol)
    (m : List (String × Symbol)) (hm : NodupKeys m) :
    NodupKeys (ss.foldl (fun m2 s => (cKeys s).foldl alErase m2) m) ∧
    ∀ q, alGet (ss.foldl (fun m2 s => (cKeys s).foldl alErase m2) m) q =
      if ∃ s ∈ ss, q ∈ cKeys s then none else alGet m q :=
  idemFold_char (fun _ => none) (fun _ => rfl)
    (fun m2 s => (cKeys s).foldl alErase m2)
    (fun q s => q ∈ cKeys s)
    (fun m2 s hm2 => ⟨(keysEraseFold (cKeys s) m2 hm2).1, fun q => by
      rw [(keysEraseFold (cKeys s) m2 hm2).2 q]⟩)
    ss m hm

theorem pkgBucketFold_char (f : String) (pkg : Option String)
    (ss : List Symbol) (m : List (String × List Symbol))
    (hm : NodupKeys m) :
    NodupKeys (ss.foldl (fun m2 (_ : Symbol) =>
      match pkgKey pkg with
      | some p => bucketRemove f m2 p
      | none => m2) m) ∧
    ∀ q, alGet (ss.foldl (fun m2 (_ : Symbol) =>
        match pkgKey pkg with
        | some p => bucketRemove f m2 p
        | none => m2) m) q =
      if ∃ _ ∈ ss, pkgKey pkg = some q
      then optBucketRemove f (alGet m q) else alGet m q :=
  idemFold_char (optBucketRemove f) (optBucketRemove_idem f)
    (fun m2 _ =>
      match pkgKey pkg with
      | some p => bucketRemove f m2 p
      | none => m2)
    (fun q _ => pkgKey pkg = some q)
    (fun m2 s hm2 => by
      cases hpk : pkgKey pkg with
      | none =>
        refine ⟨hm2, fun q => ?_⟩
        rw [if_neg (fun he : (none : Option String) = some q =>
          Option.noConfusion he)]
      | some p =>
        refine ⟨(bucketRemove_char f p m2 hm2).1, fun q => ?_⟩
        rw [(bucketRemove_char f p m2 hm2).2 q]
        by_cases hq : q = p
        · rw [if_pos hq, if_pos (by rw [hq]), hq]
        · rw [if_neg hq, if_neg (fun he : some p = some q =>
            hq (Option.some.inj he).symm)])
    ss m hm

/-- `remove_file` written as its popped-state fold. -/
theorem remove_file_eq (idx : SymbolIndex) (f : String) :
    idx.remove_file f =
      (fileSyms idx f).foldl
        (removeSymStep f (alGet idx.package_of_file f))
        { idx with
          by_file := alErase idx.by_file f
          package_of_file := alErase idx.package_of_file f } := rfl

theorem remove_file_char (idx : SymbolIndex) (f : String) (h : NodupIdx idx) :
    NodupIdx (idx.remove_file f) ∧
    (∀ q, alGet (idx.remove_file f).by_file q =
      if q = f then none else alGet idx.by_file q) ∧
    (∀ q, alGet (idx.remove_file f).package_of_file q =
      if q = f then none else alGet idx.package_of_file q) ∧
    (∀ q, alGet (idx.remove_file f).by_name q =
      if ∃ s ∈ fileSyms idx f, q = s.name
      then optBucketRemove f (alGet idx.by_name q)
      else alGet idx.by_name q) ∧
    (∀ q, alGet (idx.remove_file f).by_qualified_name q =
      if ∃ s ∈ fileSyms idx f, q = s.qualified_name
      then none else alGet idx.by_qualified_name q) ∧
    (∀ q, alGet (idx.remove_file f).by_c_name q =
      if ∃ s ∈ fileSyms idx f, q ∈ cKeys s
      then none else alGet idx.by_c_name q) ∧
    (∀ q, alGet (idx.remove_file f).by_package q =
      if ∃ _ ∈ fileSyms idx f,
          pkgKey (alGet idx.package_of_file f) = some q
      then optBucketRemove f (alGet idx.by_package q)
      else alGet idx.by_package q) := by
  obtain ⟨n1, n2, n3, n4, n5, n6⟩ := h
  obtain ⟨c1, c2, c3, c4, c5, c6⟩ :=
    removeFold_components f (alGet idx.package_of_file f) (fileSyms idx f)
      { idx with
        by_file := alErase idx.by_file f
        package_of_file := alErase idx.package_of_file f }
  have hname := nameBucketFold_char f (fileSyms idx f) idx.by_name n1
  have hqn := qnEraseFold_char (fileSyms idx f) idx.by_qualified_name n2
  have hpkg := pkgBucketFold_char f (alGet idx.package_of_file f)
    (fileSyms idx f) idx.by_package n3
  have hc := cEraseFold_char (fileSyms idx f) idx.by_c_name n6
  rw [remove_file_eq]
  refine ⟨⟨?_, ?_, ?_, ?_, ?_, ?_⟩, ?_, ?_, ?_, ?_, ?_, ?_⟩
  · rw [c1]; exact hname.1
  · rw [c2]; exact hqn.1
  · rw [c3]; exact hpkg.1
  · rw [c4]; exact nodup_alErase idx.by_file f n4
  · rw [c5]; exact nodup_alErase idx.package_of_file f n5
  · rw [c6]; exact hc.1
  · intro q; rw [c4, alGet_alErase idx.by_file f n4 q]
  · intro q; rw [c5, alGet_alErase idx.package_of_file f n5 q]
  · intro q; rw [c1]; exact hname.2 q
  · intro q; rw [c2]; exact hqn.2 q
  · intro q; rw [c6]; exact hc.2 q
  · intro q; rw [c3]; exact hpkg.2 q

/-! ### The add fold, view by view -/

theorem qnSetFold_char (ss : List Symbol)
    (m : List (String × Symbol)) (hm : NodupKeys m) :
    NodupKeys (ss.foldl (fun m2 s => alSet m2 s.qualified_name s) m) ∧
    ∀ q, alGet (ss.foldl (fun m2 s => alSet m2 s.qualified_name s) m) q =
      match lastMatch (fun s => q = s.qualified_name) ss with
      | some r => some r
      | none => alGet m q :=
  setLikeFold_char (fun m2 s => alSet m2 s.qualified_name s)
    (fun q s => q = s.qualified_name)
    (fun m2 s hm2 => ⟨nodup_alSet m2 s.qualified_name s hm2, fun q => by
      rw [alGet_alSet m2 s.qualified_name s q]⟩)
    ss m hm

theorem cSetFold_char (ss : List Symbol)
    (m : List (String × Symbol)) (hm : NodupKeys m) :
    NodupKeys (ss.foldl
      (fun m2 s => (cKeys s).foldl (fun m3 k => alSet m3 k s) m2) m) ∧
    ∀ q, alGet (ss.foldl
        (fun m2 s => (cKeys s).foldl (fun m3 k => alSet m3 k s) m2) m) q =
      match lastMatch (fun s => q ∈ cKeys s) ss with
      | some r => some r
      | none => alGet m q :=
  setLikeFold_char
    (fun m2 s => (cKeys s).foldl (fun m3 k => alSet m3 k s) m2)
    (fun q s => q ∈ cKeys s)
    (fun m2 s hm2 => ⟨(keysSetFold s (cKeys s) m2 hm2).1, fun q => by
      rw [(keysSetFold s (cKeys s) m2 hm2).2 q]⟩)
    ss m hm

theorem addFold_char (ss : List Symbol) (idx : SymbolIndex)
    (h : NodupIdx idx) :
    NodupIdx (ss.foldl SymbolIndex.add_symbol idx) ∧
    (∀ q, alGet (ss.foldl SymbolIndex.add_symbol idx).by_name q =
      if ss.filter (fun s => s.name = q) = [] then alGet idx.by_name q
      else some ((alGet idx.by_name q).getD [] ++
        ss.filter (fun s => s.name = q))) ∧
    (∀ q, alGet (ss.foldl SymbolIndex.add_symbol idx).by_package q =
      if ss.filter (fun s => s.package = q) = [] then alGet idx.by_package q
      else some ((alGet idx.by_package q).getD [] ++
        ss.filter (fun s => s.package = q))) ∧
    (∀ q, alGet (ss.foldl SymbolIndex.add_symbol idx).by_file q =
      if ss.filter (fun s => s.file = q) = [] then alGet idx.by_file q
      else some ((alGet idx.by_file q).getD [] ++
        ss.filter (fun s => s.file = q))) ∧
    (∀ q, alGet (ss.foldl SymbolIndex.add_symbol idx).by_qualified_name q =
      match lastMatch (fun s => q = s.qualified_name) ss with
      | some r => some r
      | none => alGet idx.by_qualified_name q) ∧
    (∀ q, alGet (ss.foldl SymbolIndex.add_symbol idx).by_c_name q =
      match lastMatch (fun s => q ∈ cKeys s) ss with
      | some r => some r
      | none => alGet idx.by_c_name q) ∧
    (ss.foldl SymbolIndex.add_symbol idx).package_of_file =
      idx.package_of_file := by
  obtain ⟨n1, n2, n3, n4, n5, n6⟩ := h
  obtain ⟨c1, c2, c3, c4, c5, c6⟩ := addFold_components ss idx
  have hname := appendFold_char Symbol.name ss idx.by_name n1
  have hpkg := appendFold_char Symbol.package ss idx.by_package n3
  have hfile := appendFold_char Symbol.file ss idx.by_file n4
  have hqn := qnSetFold_char ss idx.by_qualified_name n2
  have hc := cSetFold_char ss idx.by_c_name n6
  refine ⟨⟨?_, ?_, ?_, ?_, ?_, ?_⟩, ?_, ?_, ?_, ?_, ?_, c5⟩
  · rw [c1]; exact hname.1
  · rw [c2]; exact hqn.1
  · rw [c3]; exact hpkg.1
  · rw [c4]; exact hfile.1
  · rw [c5]; exact n5
  · rw [c6]; exact hc.1
  · intro q; rw [c1]; exact hname.2 q
  · intro q; rw [c3]; exact hpkg.2 q
  · intro q; rw [c4]; exact hfile.2 q
  · intro q; rw [c2]; exact hqn.2 q
  · intro q; rw [c6]; exact hc.2 q

/-! ### index_source decomposition and extracted-symbol facts -/

theorem add_symbol_by_name (idx : SymbolIndex) (s : Symbol) :
    (idx.add_symbol s).by_name = alAppend idx.by_name s.name s := rfl

theorem add_symbol_by_qn (idx : SymbolIndex) (s : Symbol) :
    (idx.add_symbol s).by_qualified_name =
      alSet idx.by_qualified_name s.qualified_name s := rfl

theorem add_symbol_by_package (idx : SymbolIndex) (s : Symbol) :
    (idx.add_symbol s).by_package = alAppend idx.by_package s.package s := rfl

theorem add_symbol_by_file (idx : SymbolIndex) (s : Symbol) :
    (idx.add_symbol s).by_file = alAppend idx.by_file s.file s := rfl

theorem add_symbol_pof (idx : SymbolIndex) (s : Symbol) :
    (idx.add_symbol s).package_of_file = idx.package_of_file := rfl

theorem add_symbol_by_c (idx : SymbolIndex) (s : Symbol) :
    (idx.add_symbol s).by_c_name =
      (cKeys s).foldl (fun m k => alSet m k s) idx.by_c_name := rfl

theorem indexChildren_eq (f pkg : String) :
    ∀ (cs prevRev : List TSTree) (idx : SymbolIndex),
      indexChildren f pkg idx prevRev cs =
        (extractedSymsGo f pkg prevRev cs).foldl SymbolIndex.add_symbol
          idx := by
  intro cs
  induction cs with
  | nil => intro pr idx; rfl
  | cons c rest ih =>
    intro pr idx
    cases hes : extract_symbol pr c f pkg with
    | some s =>
      simp only [indexChildren, extractedSymsGo, hes, List.foldl_cons]
      exact ih (c :: pr) (idx.add_symbol s)
    | none =>
      simp only [indexChildren, extractedSymsGo, hes]
      exact ih (c :: pr) idx

theorem indexSourceTree_none (idx : SymbolIndex) (f : String) (root : TSTree)
    (h : findPackage root.children = none) :
    indexSourceTree idx f root = idx := by
  simp only [indexSourceTree, h]

theorem indexSourceTree_some (idx : SymbolIndex) (f : String) (root : TSTree)
    (pkg : String) (h : findPackage root.children = some pkg) :
    indexSourceTree idx f root =
      (extractedSyms f pkg root).foldl SymbolIndex.add_symbol
        { idx with
          package_of_file := alSet idx.package_of_file f pkg } := by
  simp only [indexSourceTree, h, extractedSyms]
  exact indexChildren_eq f pkg root.children [] _

theorem index_source_eq (idx : SymbolIndex) (f : String) (root : TSTree) :
    index_source idx f root = indexSourceTree (idx.remove_file f) f root :=
  rfl

theorem index_file_none (idx : SymbolIndex) (f : String) :
    index_file idx f none = idx.remove_file f := rfl

theorem index_file_some (idx : SymbolIndex) (f : String) (root : TSTree) :
    index_file idx f (some root) = index_source idx f root := rfl

/-- Every extracted symbol carries the indexing call's file and package and
the derived qualified name. -/
theorem extract_symbol_fields (pr : List TSTree) (c : TSTree)
    (f pkg : String) (s : Symbol) (h : extract_symbol pr c f pkg = some s) :
    s.file = f ∧ s.package = pkg ∧
      s.qualified_name = pkg ++ "." ++ s.name := by
  unfold extract_symbol at h
  cases hk : extractKind c with
  | none => rw [hk] at h; exact Option.noConfusion h
  | some kind =>
    rw [hk] at h
    cases hid : extractIdNode c with
    | none => rw [hid] at h; exact Option.noConfusion h
    | some idn =>
      rw [hid] at h
      have hs := (Option.some.inj h).symm
      subst hs
      exact ⟨rfl, rfl, rfl⟩

theorem extractedSymsGo_fields (f pkg : String) :
    ∀ (cs prevRev : List TSTree) (s : Symbol),
      s ∈ extractedSymsGo f pkg prevRev cs →
      s.file = f ∧ s.package = pkg ∧
        s.qualified_name = pkg ++ "." ++ s.name := by
  intro cs
  induction cs with
  | nil => intro pr s hs; simp [extractedSymsGo] at hs
  | cons c rest ih =>
    intro pr s hs
    cases hes : extract_symbol pr c f pkg with
    | some t =>
      rw [extractedSymsGo, hes] at hs
      rcases List.mem_cons.mp hs with rfl | hs2
      · exact extract_symbol_fields pr c f pkg s hes
      · exact ih (c :: pr) s hs2
    | none =>
      rw [extractedSymsGo, hes] at hs
      exact ih (c :: pr) s hs

theorem extractedSyms_fields (f pkg : String) (root : TSTree) (s : Symbol)
    (hs : s ∈ extractedSyms f pkg root) :
    s.file = f ∧ s.package = pkg ∧
      s.qualified_name = pkg ++ "." ++ s.name :=
  extractedSymsGo_fields f pkg root.children [] s hs

/-! ### InIndex helpers -/

theorem mem_fileSyms (idx : SymbolIndex) (s : Symbol)
    (hI : InIndex idx s) : s ∈ fileSyms idx s.file := by
  obtain ⟨l, hl, hm⟩ := hI
  unfold fileSyms
  rw [hl]
  exact hm

theorem inIndex_add (idx : SymbolIndex) (s t : Symbol) :
    InIndex (idx.add_symbol s) t ↔ InIndex idx t ∨ t = s := by
  unfold InIndex
  rw [add_symbol_by_file]
  by_cases hf : t.file = s.file
  · rw [alGet_alAppend idx.by_file s.file s t.file, if_pos hf]
    constructor
    · rintro ⟨l, hl, hm⟩
      cases Option.some.inj hl
      rcases List.mem_append.mp hm with hm1 | hm2
      · cases hget : alGet idx.by_file s.file with
        | none => rw [hget] at hm1; simp at hm1
        | some l0 =>
          rw [hget] at hm1
          exact Or.inl ⟨l0, by rw [hf, hget], hm1⟩
      · exact Or.inr (List.mem_singleton.mp hm2)
    · rintro (⟨l, hl, hm⟩ | rfl)
      · refine ⟨_, rfl, List.mem_append.mpr (Or.inl ?_)⟩
        rw [hf] at hl
        rw [hl]
        exact hm
      · exact ⟨_, rfl, List.mem_append.mpr (Or.inr (List.mem_singleton.mpr rfl))⟩
  · rw [alGet_alAppend idx.by_file s.file s t.file, if_neg hf]
    constructor
    · exact fun hI => Or.inl hI
    · rintro (hI | rfl)
      · exact hI
      · exact absurd rfl hf

theorem inIndex_remove (idx : SymbolIndex) (f : String) (t : Symbol)
    (h : NodupIdx idx) :
    InIndex (idx.remove_file f) t ↔ InIndex idx t ∧ t.file ≠ f := by
  obtain ⟨-, hfile, -, -, -, -, -⟩ := remove_file_char idx f h
  unfold InIndex
  rw [hfile t.file]
  by_cases hf : t.file = f
  · rw [if_pos hf]
    constructor
    · rintro ⟨l, hl, -⟩; exact absurd hl (by simp)
    · rintro ⟨-, hne⟩; exact absurd hf hne
  · rw [if_neg hf]
    constructor
    · exact fun hI => ⟨hI, hf⟩
    · exact fun hI => hI.1

theorem optBucketRemove_some (f : String) (o : Option (List Symbol))
    (l : List Symbol) (h : optBucketRemove f o = some l) :
    l = (o.getD []).filter (fun s => s.file ≠ f) ∧ l ≠ [] := by
  rw [optBucketRemove_eq] at h
  by_cases he : ((o.getD []).filter (fun s => s.file ≠ f)).isEmpty
  · rw [if_pos he] at h
    exact absurd h (by simp)
  · rw [if_neg he] at h
    have hl : l = (o.getD []).filter (fun s => s.file ≠ f) :=
      (Option.some.inj h).symm
    refine ⟨hl, fun hnil => ?_⟩
    rw [← hl, hnil] at he
    exact he rfl

/-! ### Preservation of soundness well-formedness -/

theorem nodupKeys_nil {α : Type} : NodupKeys ([] : List (String × α)) := by
  simp [NodupKeys]

theorem wfs_empty : WFS emptyIndex := by
  refine ⟨⟨nodupKeys_nil, nodupKeys_nil, nodupKeys_nil, nodupKeys_nil,
    nodupKeys_nil, nodupKeys_nil⟩, ?_, ?_, ?_, ?_, ?_, ?_, ?_⟩
  · intro f l hget; exact Option.noConfusion hget
  · intro n l hget; exact Option.noConfusion hget
  · intro p l hget; exact Option.noConfusion hget
  · intro q s hget; exact Option.noConfusion hget
  · intro k s hget; exact Option.noConfusion hget
  · intro f l hget; exact Option.noConfusion hget
  · intro f l hget; exact Option.noConfusion hget

theorem wfs_add (idx : SymbolIndex) (s : Symbol) (h : WFS idx)
    (hpof : alGet idx.package_of_file s.file = some s.package)
    (hpkgne : s.package ≠ "") : WFS (idx.add_symbol s) := by
  obtain ⟨n1, n2, n3, n4, n5, n6⟩ := h.nodups
  refine ⟨⟨nodup_alAppend _ _ _ n1, nodup_alSet _ _ _ n2,
    nodup_alAppend _ _ _ n3, nodup_alAppend _ _ _ n4, n5,
    (keysSetFold s (cKeys s) idx.by_c_name n6).1⟩, ?_, ?_, ?_, ?_, ?_, ?_, ?_⟩
  · -- file_key
    intro g l hget t ht
    rw [add_symbol_by_file, alGet_alAppend] at hget
    by_cases hg : g = s.file
    · rw [if_pos hg] at hget
      cases Option.some.inj hget
      rcases List.mem_append.mp ht with ht1 | ht2
      · cases hget0 : alGet idx.by_file s.file with
        | none => rw [hget0] at ht1; simp at ht1
        | some l0 =>
          rw [hget0] at ht1
          rw [hg]
          exact h.file_key s.file l0 hget0 t ht1
      · obtain rfl := List.mem_singleton.mp ht2
        rw [hg]
    · rw [if_neg hg] at hget
      exact h.file_key g l hget t ht
  · -- name_key
    intro n l hget
    rw [add_symbol_by_name, alGet_alAppend] at hget
    by_cases hn : n = s.name
    · rw [if_pos hn] at hget
      cases Option.some.inj hget
      refine ⟨by simp, fun t ht => ?_⟩
      rcases List.mem_append.mp ht with ht1 | ht2
      · cases hget0 : alGet idx.by_name s.name with
        | none => rw [hget0] at ht1; simp at ht1
        | some l0 =>
          rw [hget0] at ht1
          obtain ⟨-, hmem0⟩ := h.name_key s.name l0 hget0
          obtain ⟨hteq, htI⟩ := hmem0 t ht1
          exact ⟨hteq.trans hn.symm, (inIndex_add idx s t).mpr (Or.inl htI)⟩
      · obtain rfl := List.mem_singleton.mp ht2
        exact ⟨hn.symm, (inIndex_add idx t t).mpr (Or.inr rfl)⟩
    · rw [if_neg hn] at hget
      obtain ⟨hne0, hmem0⟩ := h.name_key n l hget
      refine ⟨hne0, fun t ht => ?_⟩
      obtain ⟨hteq, htI⟩ := hmem0 t ht
      exact ⟨hteq, (inIndex_add idx s t).mpr (Or.inl htI)⟩
  · -- pkg_key
    intro p l hget
    rw [add_symbol_by_package, alGet_alAppend] at hget
    by_cases hp : p = s.package
    · rw [if_pos hp] at hget
      cases Option.some.inj hget
      refine ⟨by simp, fun t ht => ?_⟩
      rcases List.mem_append.mp ht with ht1 | ht2
      · cases hget0 : alGet idx.by_package s.package with
        | none => rw [hget0] at ht1; simp at ht1
        | some l0 =>
          rw [hget0] at ht1
          obtain ⟨-, hmem0⟩ := h.pkg_key s.package l0 hget0
          obtain ⟨hteq, htI⟩ := hmem0 t ht1
          exact ⟨hteq.trans hp.symm, (inIndex_add idx s t).mpr (Or.inl htI)⟩
      · obtain rfl := List.mem_singleton.mp ht2
        exact ⟨hp.symm, (inIndex_add idx t t).mpr (Or.inr rfl)⟩
    · rw [if_neg hp] at hget
      obtain ⟨hne0, hmem0⟩ := h.pkg_key p l hget
      refine ⟨hne0, fun t ht => ?_⟩
      obtain ⟨hteq, htI⟩ := hmem0 t ht
      exact ⟨hteq, (inIndex_add idx s t).mpr (Or.inl htI)⟩
  · -- qn_key
    intro q t hget
    rw [add_symbol_by_qn, alGet_alSet] at hget
    by_cases hq : q = s.qualified_name
    · rw [if_pos hq] at hget
      cases Option.some.inj hget
      exact ⟨hq, (inIndex_add idx s s).mpr (Or.inr rfl)⟩
    · rw [if_neg hq] at hget
      obtain ⟨he, hI⟩ := h.qn_key q t hget
      exact ⟨he, (inIndex_add idx s t).mpr (Or.inl hI)⟩
  · -- c_key
    intro k t hget
    rw [add_symbol_by_c, (keysSetFold s (cKeys s) idx.by_c_name n6).2 k]
      at hget
    by_cases hk : k ∈ cKeys s
    · rw [if_pos hk] at hget
      cases Option.some.inj hget
      exact ⟨(inIndex_add idx s s).mpr (Or.inr rfl), hk⟩
    · rw [if_neg hk] at hget
      obtain ⟨hI, hkk⟩ := h.c_key k t hget
      exact ⟨(inIndex_add idx s t).mpr (Or.inl hI), hkk⟩
  · -- pof_key
    intro g l hget t ht
    rw [add_symbol_by_file, alGet_alAppend] at hget
    rw [add_symbol_pof]
    by_cases hg : g = s.file
    · rw [if_pos hg] at hget
      cases Option.some.inj hget
      rcases List.mem_append.mp ht with ht1 | ht2
      · cases hget0 : alGet idx.by_file s.file with
        | none => rw [hget0] at ht1; simp at ht1
        | some l0 =>
          rw [hget0] at ht1
          rw [hg]
          exact h.pof_key s.file l0 hget0 t ht1
      · obtain rfl := List.mem_singleton.mp ht2
        rw [hg]
        exact hpof
    · rw [if_neg hg] at hget
      exact h.pof_key g l hget t ht
  · -- pkg_truthy
    intro g l hget t ht
    rw [add_symbol_by_file, alGet_alAppend] at hget
    by_cases hg : g = s.file
    · rw [if_pos hg] at hget
      cases Option.some.inj hget
      rcases List.mem_append.mp ht with ht1 | ht2
      · cases hget0 : alGet idx.by_file s.file with
        | none => rw [hget0] at ht1; simp at ht1
        | some l0 =>
          rw [hget0] at ht1
          exact h.pkg_truthy s.file l0 hget0 t ht1
      · obtain rfl := List.mem_singleton.mp ht2
        exact hpkgne
    · rw [if_neg hg] at hget
      exact h.pkg_truthy g l hget t ht

theorem wfs_setpof (idx : SymbolIndex) (f p : String) (h : WFS idx)
    (hfile : alGet idx.by_file f = none) :
    WFS { idx with package_of_file := alSet idx.package_of_file f p } := by
  obtain ⟨n1, n2, n3, n4, n5, n6⟩ := h.nodups
  refine ⟨⟨n1, n2, n3, n4, nodup_alSet _ _ _ n5, n6⟩,
    h.file_key, h.name_key, h.pkg_key, h.qn_key, h.c_key, ?_, h.pkg_truthy⟩
  intro g l hget t ht
  show alGet (alSet idx.package_of_file f p) g = some t.package
  rw [alGet_alSet]
  by_cases hg : g = f
  · rw [hg] at hget
    rw [hfile] at hget
    exact Option.noConfusion hget
  · rw [if_neg hg]
    exact h.pof_key g l hget t ht

theorem wfs_remove (idx : SymbolIndex) (f : String) (h : WFS idx) :
    WFS (idx.remove_file f) := by
  obtain ⟨hnd, hfileg, hpofg, hnameg, hqng, hcg, hpkgg⟩ :=
    remove_file_char idx f h.nodups
  have hmemf : ∀ t, InIndex idx t → t.file = f → t ∈ fileSyms idx f :=
    fun t hI hf => hf ▸ mem_fileSyms idx t hI
  refine ⟨hnd, ?_, ?_, ?_, ?_, ?_, ?_, ?_⟩
  · -- file_key
    intro g l hget t ht
    rw [hfileg g] at hget
    by_cases hg : g = f
    · rw [if_pos hg] at hget; exact Option.noConfusion hget
    · rw [if_neg hg] at hget
      exact h.file_key g l hget t ht
  · -- name_key
    intro n l hget
    rw [hnameg n] at hget
    by_cases hn : ∃ s0 ∈ fileSyms idx f, n = s0.name
    · rw [if_pos hn] at hget
      obtain ⟨hleq, hlne⟩ := optBucketRemove_some f _ l hget
      subst hleq
      refine ⟨hlne, fun t ht => ?_⟩
      have htf : t.file ≠ f := by
        have := (List.mem_filter.mp ht).2
        simpa using this
      have ht0 : t ∈ (alGet idx.by_name n).getD [] :=
        (List.mem_filter.mp ht).1
      cases hget0 : alGet idx.by_name n with
      | none => rw [hget0] at ht0; simp at ht0
      | some l0 =>
        rw [hget0] at ht0
        obtain ⟨-, hmem0⟩ := h.name_key n l0 hget0
        obtain ⟨hteq, htI⟩ := hmem0 t ht0
        exact ⟨hteq, (inIndex_remove idx f t h.nodups).mpr ⟨htI, htf⟩⟩
    · rw [if_neg hn] at hget
      obtain ⟨hlne, hmem0⟩ := h.name_key n l hget
      refine ⟨hlne, fun t ht => ?_⟩
      obtain ⟨hteq, htI⟩ := hmem0 t ht
      have htf : t.file ≠ f := fun hf0 => hn ⟨t, hmemf t htI hf0, hteq.symm⟩
      exact ⟨hteq, (inIndex_remove idx f t h.nodups).mpr ⟨htI, htf⟩⟩
  · -- pkg_key
    intro p l hget
    rw [hpkgg p] at hget
    by_cases hc : ∃ _ ∈ fileSyms idx f,
        pkgKey (alGet idx.package_of_file f) = some p
    · rw [if_pos hc] at hget
      obtain ⟨hleq, hlne⟩ := optBucketRemove_some f _ l hget
      subst hleq
      refine ⟨hlne, fun t ht => ?_⟩
      have htf : t.file ≠ f := by
        have := (List.mem_filter.mp ht).2
        simpa using this
      have ht0 : t ∈ (alGet idx.by_package p).getD [] :=
        (List.mem_filter.mp ht).1
      cases hget0 : alGet idx.by_package p with
      | none => rw [hget0] at ht0; simp at ht0
      | some l0 =>
        rw [hget0] at ht0
        obtain ⟨-, hmem0⟩ := h.pkg_key p l0 hget0
        obtain ⟨hteq, htI⟩ := hmem0 t ht0
        exact ⟨hteq, (inIndex_remove idx f t h.nodups).mpr ⟨htI, htf⟩⟩
    · rw [if_neg hc] at hget
      obtain ⟨hlne, hmem0⟩ := h.pkg_key p l hget
      refine ⟨hlne, fun t ht => ?_⟩
      obtain ⟨hteq, htI⟩ := hmem0 t ht
      have htf : t.file ≠ f := by
        intro hf0
        have htm := hmemf t htI hf0
        obtain ⟨lf, hlf, hmf⟩ := htI
        rw [hf0] at hlf
        have hpoff := h.pof_key f lf hlf t hmf
        have htp : t.package ≠ "" := h.pkg_truthy f lf hlf t hmf
        apply hc
        refine ⟨t, htm, ?_⟩
        rw [hpoff]
        simp only [pkgKey]
        rw [if_neg htp, hteq]
      exact ⟨hteq, (inIndex_remove idx f t h.nodups).mpr ⟨htI, htf⟩⟩
  · -- qn_key
    intro q t hget
    rw [hqng q] at hget
    by_cases hq : ∃ s0 ∈ fileSyms idx f, q = s0.qualified_name
    · rw [if_pos hq] at hget; exact Option.noConfusion hget
    · rw [if_neg hq] at hget
      obtain ⟨he, hI⟩ := h.qn_key q t hget
      have htf : t.file ≠ f := fun hf0 => hq ⟨t, hmemf t hI hf0, he⟩
      exact ⟨he, (inIndex_remove idx f t h.nodups).mpr ⟨hI, htf⟩⟩
  · -- c_key
    intro k t hget
    rw [hcg k] at hget
    by_cases hk : ∃ s0 ∈ fileSyms idx f, k ∈ cKeys s0
    · rw [if_pos hk] at hget; exact Option.noConfusion hget
    · rw [if_neg hk] at hget
      obtain ⟨hI, hkk⟩ := h.c_key k t hget
      have htf : t.file ≠ f := fun hf0 => hk ⟨t, hmemf t hI hf0, hkk⟩
      exact ⟨(inIndex_remove idx f t h.nodups).mpr ⟨hI, htf⟩, hkk⟩
  · -- pof_key
    intro g l hget t ht
    rw [hfileg g] at hget
    by_cases hg : g = f
    · rw [if_pos hg] at hget; exact Option.noConfusion hget
    · rw [if_neg hg] at hget
      rw [hpofg g, if_neg hg]
      exact h.pof_key g l hget t ht
  · -- pkg_truthy
    intro g l hget t ht
    rw [hfileg g] at hget
    by_cases hg : g = f
    · rw [if_pos hg] at hget; exact Option.noConfusion hget
    · rw [if_neg hg] at hget
      exact h.pkg_truthy g l hget t ht

/-! ### Soundness, absence after removal, and index_source facts -/

theorem inIndex_of_inAnyView (idx : SymbolIndex) (s : Symbol) (h : WFS idx)
    (hv : InAnyView idx s) : InIndex idx s := by
  rcases hv with ⟨n, l, hget, hm⟩ | ⟨q, hget⟩ | ⟨p, l, hget, hm⟩ |
    ⟨g, l, hget, hm⟩ | ⟨k, hget⟩
  · exact ((h.name_key n l hget).2 s hm).2
  · exact (h.qn_key q s hget).2
  · exact ((h.pkg_key p l hget).2 s hm).2
  · have hf := h.file_key g l hget s hm
    exact ⟨l, by rw [hf]; exact hget, hm⟩
  · exact (h.c_key k s hget).1

theorem not_inAnyView_remove (idx : SymbolIndex) (f : String) (s : Symbol)
    (h : WFS idx) (hs : s.file = f) :
    ¬ InAnyView (idx.remove_file f) s := by
  intro hv
  exact absurd hs
    ((inIndex_remove idx f s h.nodups).mp
      (inIndex_of_inAnyView _ s (wfs_remove idx f h) hv)).2

theorem wfs_addFold (ss : List Symbol) (idx : SymbolIndex) (f pkg : String)
    (h : WFS idx) (hpof : alGet idx.package_of_file f = some pkg)
    (hpkg : pkg ≠ "") (hss : ∀ s ∈ ss, s.file = f ∧ s.package = pkg) :
    WFS (ss.foldl SymbolIndex.add_symbol idx) := by
  induction ss generalizing idx with
  | nil => exact h
  | cons s rest ih =>
    have hs := hss s (List.mem_cons_self s rest)
    have h2 := wfs_add idx s h (by rw [hs.1, hs.2]; exact hpof)
      (hs.2 ▸ hpkg)
    rw [List.foldl_cons]
    exact ih (idx.add_symbol s) h2 (by rw [add_symbol_pof]; exact hpof)
      (fun t ht => hss t (List.mem_cons_of_mem s ht))

theorem wfs_index_source (idx : SymbolIndex) (f : String) (root : TSTree)
    (h : WFS idx)
    (hp : ∀ p, findPackage root.children = some p → p ≠ "") :
    WFS (index_source idx f root) := by
  rw [index_source_eq]
  cases hfp : findPackage root.children with
  | none =>
    rw [indexSourceTree_none _ _ _ hfp]
    exact wfs_remove idx f h
  | some pkg =>
    rw [indexSourceTree_some _ _ _ pkg hfp]
    have hrm := wfs_remove idx f h
    have hrmfile : alGet (idx.remove_file f).by_file f = none := by
      obtain ⟨-, hfileg, -⟩ := remove_file_char idx f h.nodups
      rw [hfileg f, if_pos rfl]
    have hsp := wfs_setpof (idx.remove_file f) f pkg hrm hrmfile
    apply wfs_addFold (extractedSyms f pkg root) _ f pkg hsp
    · show alGet (alSet (idx.remove_file f).package_of_file f pkg) f =
        some pkg
      rw [alGet_alSet, if_pos rfl]
    · exact hp pkg hfp
    · intro s hsm
      obtain ⟨h1, h2, -⟩ := extractedSyms_fields f pkg root s hsm
      exact ⟨h1, h2⟩

theorem nodupIdx_setpof (idx : SymbolIndex) (f p : String)
    (h : NodupIdx idx) :
    NodupIdx { idx with
      package_of_file := alSet idx.package_of_file f p } := by
  obtain ⟨n1, n2, n3, n4, n5, n6⟩ := h
  exact ⟨n1, n2, n3, n4, nodup_alSet _ _ _ n5, n6⟩

/-- After a (re-)index with a package declaration, the file's symbol list is
exactly the extracted symbol list. -/
theorem index_source_fileSyms (idx : SymbolIndex) (f : String)
    (root : TSTree) (pkg : String) (hnd : NodupIdx idx)
    (hfp : findPackage root.children = some pkg) :
    fileSyms (index_source idx f root) f = extractedSyms f pkg root := by
  rw [index_source_eq, indexSourceTree_some _ _ _ pkg hfp]
  have hndJ : NodupIdx (idx.remove_file f) := (remove_file_char idx f hnd).1
  have hndB := nodupIdx_setpof (idx.remove_file f) f pkg hndJ
  have hbase_file : alGet (idx.remove_file f).by_file f = none := by
    obtain ⟨-, hfileg, -⟩ := remove_file_char idx f hnd
    rw [hfileg f, if_pos rfl]
  obtain ⟨-, -, -, hfile_char, -⟩ :=
    addFold_char (extractedSyms f pkg root) _ hndB
  unfold fileSyms
  rw [hfile_char f]
  have hDfil : (extractedSyms f pkg root).filter (fun s => s.file = f) =
      extractedSyms f pkg root :=
    List.filter_eq_self.mpr (fun s hs => by
      simp [(extractedSyms_fields f pkg root s hs).1])
  rw [hDfil]
  by_cases hD : extractedSyms f pkg root = []
  · rw [if_pos hD]
    show (alGet (idx.remove_file f).by_file f).getD [] = _
    rw [hbase_file, hD]
    rfl
  · rw [if_neg hD]
    show (some ((alGet (idx.remove_file f).by_file f).getD [] ++ _)).getD []
      = _
    rw [hbase_file]
    rfl

/-- A symbol is present in all views right after its own `add_symbol`. -/
theorem inAllViews_add_last (idx : SymbolIndex) (s : Symbol)
    (h6 : NodupKeys idx.by_c_name) : InAllViews (idx.add_symbol s) s := by
  have hc := (keysSetFold s (cKeys s) idx.by_c_name h6).2
  refine ⟨?_, ?_, ?_, ?_, ?_, ?_⟩
  · rw [add_symbol_by_name, alGet_alAppend, if_pos rfl]
    exact List.mem_append.mpr (Or.inr (List.mem_singleton.mpr rfl))
  · rw [add_symbol_by_qn, alGet_alSet, if_pos rfl]
  · rw [add_symbol_by_package, alGet_alAppend, if_pos rfl]
    exact List.mem_append.mpr (Or.inr (List.mem_singleton.mpr rfl))
  · rw [add_symbol_by_file, alGet_alAppend, if_pos rfl]
    exact List.mem_append.mpr (Or.inr (List.mem_singleton.mpr rfl))
  · have hmem : iop_type_to_c s.qualified_name ∈ cKeys s :=
      List.mem_cons_self _ _
    rw [add_symbol_by_c, hc, if_pos hmem]
  · intro ct hct hne
    have hmem : stripCSuffix ct ∈ cKeys s := by
      simp only [cKeys, hct]
      rw [if_pos hne]
      exact List.mem_cons_of_mem _ (List.mem_singleton.mpr rfl)
    rw [add_symbol_by_c, hc, if_pos hmem]

/-! ### Claims C1, C3, C10 -/

/-- C1 (counterexample): the claim says a failed read during `index_file`
leaves every index view exactly as before, prior symbols of the path
included.  In the code, `remove_file` runs before the read is attempted, so
after a failed read the previously indexed `foo.Common` of `/a.iop` is gone
from the qualified-name view (and the file's package mapping is gone too). -/
theorem C1_counterexample :
    (alGet (index_source emptyIndex "/a.iop" fileFooCommon).by_qualified_name
      "foo.Common").isSome = true ∧
    alGet (index_file (index_source emptyIndex "/a.iop" fileFooCommon)
      "/a.iop" none).by_qualified_name "foo.Common" = none ∧
    alGet (index_file (index_source emptyIndex "/a.iop" fileFooCommon)
      "/a.iop" none).package_of_file "/a.iop" = none := by
  refine ⟨rfl, rfl, rfl⟩

/-- C1 (amended): when the read fails, the failure is only logged and no new
symbols are added, but the file's previous symbols and package mapping have
already been removed (removal precedes the read): the file ends up
contributing zero symbols, its old symbols are absent from every view, and
entries of other files in the file-keyed maps are untouched. -/
theorem C1_amended_read_failure (idx : SymbolIndex) (f : String)
    (h : WFS idx) :
    (∀ s, s.file = f → ¬ InAnyView (index_file idx f none) s) ∧
    alGet (index_file idx f none).package_of_file f = none ∧
    alGet (index_file idx f none).by_file f = none ∧
    (∀ g, g ≠ f →
      alGet (index_file idx f none).by_file g = alGet idx.by_file g) ∧
    (∀ g, g ≠ f →
      alGet (index_file idx f none).package_of_file g =
        alGet idx.package_of_file g) := by
  rw [index_file_none]
  obtain ⟨-, hfileg, hpofg, -⟩ := remove_file_char idx f h.nodups
  refine ⟨fun s hs => not_inAnyView_remove idx f s h hs, ?_, ?_, ?_, ?_⟩
  · rw [hpofg f, if_pos rfl]
  · rw [hfileg f, if_pos rfl]
  · intro g hg
    rw [hfileg g, if_neg hg]
  · intro g hg
    rw [hpofg g, if_neg hg]

theorem C1_amended_read_failure_witness :
    (∀ s, s.file = "/a.iop" →
      ¬ InAnyView (index_file (index_source emptyIndex "/a.iop"
        fileFooCommon) "/a.iop" none) s) ∧
    alGet (index_file (index_source emptyIndex "/a.iop" fileFooCommon)
      "/a.iop" none).package_of_file "/a.iop" = none ∧
    alGet (index_file (index_source emptyIndex "/a.iop" fileFooCommon)
      "/a.iop" none).by_file "/a.iop" = none ∧
    (∀ g, g ≠ "/a.iop" →
      alGet (index_file (index_source emptyIndex "/a.iop" fileFooCommon)
        "/a.iop" none).by_file g =
      alGet (index_source emptyIndex "/a.iop" fileFooCommon).by_file g) ∧
    (∀ g, g ≠ "/a.iop" →
      alGet (index_file (index_source emptyIndex "/a.iop" fileFooCommon)
        "/a.iop" none).package_of_file g =
      alGet (index_source emptyIndex "/a.iop"
        fileFooCommon).package_of_file g) :=
  C1_amended_read_failure (index_source emptyIndex "/a.iop" fileFooCommon)
    "/a.iop"
    (wfs_index_source emptyIndex "/a.iop" fileFooCommon wfs_empty
      (fun p hp => by
        rw [show findPackage fileFooCommon.children = some "foo" from rfl]
          at hp
        cases Option.some.inj hp
        decide))

/-- C10: re-indexing a previously indexed file with content that contains no
package declaration removes all of the file's prior symbols from every index
view and removes its package mapping; the file contributes zero symbols. -/
theorem C10_reindex_without_package_clears (idx : SymbolIndex) (f : String)
    (root : TSTree) (h : WFS idx)
    (hfp : findPackage root.children = none) :
    (∀ s, s.file = f → ¬ InAnyView (index_source idx f root) s) ∧
    alGet (index_source idx f root).package_of_file f = none ∧
    alGet (index_source idx f root).by_file f = none := by
  have heq : index_source idx f root = idx.remove_file f := by
    rw [index_source_eq, indexSourceTree_none _ _ _ hfp]
  rw [heq]
  obtain ⟨-, hfileg, hpofg, -⟩ := remove_file_char idx f h.nodups
  refine ⟨fun s hs => not_inAnyView_remove idx f s h hs, ?_, ?_⟩
  · rw [hpofg f, if_pos rfl]
  · rw [hfileg f, if_pos rfl]

theorem C10_reindex_without_package_clears_witness :
    (∀ s, s.file = "/a.iop" →
      ¬ InAnyView (index_source (index_source emptyIndex "/a.iop"
        fileFooCommon) "/a.iop" (rootNode [structNode "Zed" []])) s) ∧
    alGet (index_source (index_source emptyIndex "/a.iop" fileFooCommon)
      "/a.iop" (rootNode [structNode "Zed" []])).package_of_file "/a.iop" =
      none ∧
    alGet (index_source (index_source emptyIndex "/a.iop" fileFooCommon)
      "/a.iop" (rootNode [structNode "Zed" []])).by_file "/a.iop" = none :=
  C10_reindex_without_package_clears
    (index_source emptyIndex "/a.iop" fileFooCommon) "/a.iop"
    (rootNode [structNode "Zed" []])
    (wfs_index_source emptyIndex "/a.iop" fileFooCommon wfs_empty
      (fun p hp => by
        rw [show findPackage fileFooCommon.children = some "foo" from rfl]
          at hp
        cases Option.some.inj hp
        decide))
    (by decide)

/-- C3: re-indexing replaces and never accumulates — after indexing file F
with content declaring symbol A and re-indexing F with content declaring only
symbol B, A is absent from every index view and B is present in all
applicable views. -/
theorem C3_reindex_replaces (idx : SymbolIndex) (f : String)
    (rootA rootB : TSTree) (pkgA pkgB : String) (A B : Symbol)
    (h : WFS idx)
    (hfpA : findPackage rootA.children = some pkgA) (hpA : pkgA ≠ "")
    (hfpB : findPackage rootB.children = some pkgB) (hpB : pkgB ≠ "")
    (hA : A ∈ extractedSyms f pkgA rootA)
    (hB : extractedSyms f pkgB rootB = [B])
    (hAB : A ≠ B) :
    ¬ InAnyView (index_source (index_source idx f rootA) f rootB) A ∧
    InAllViews (index_source (index_source idx f rootA) f rootB) B := by
  have hw1 : WFS (index_source idx f rootA) :=
    wfs_index_source idx f rootA h (fun p hp => by
      rw [hfpA] at hp
      exact (Option.some.inj hp) ▸ hpA)
  have hw2 : WFS (index_source (index_source idx f rootA) f rootB) :=
    wfs_index_source _ f rootB hw1 (fun p hp => by
      rw [hfpB] at hp
      exact (Option.some.inj hp) ▸ hpB)
  constructor
  · intro hv
    have hI := inIndex_of_inAnyView _ _ hw2 hv
    have hAf : A.file = f := (extractedSyms_fields f pkgA rootA A hA).1
    have hmem := mem_fileSyms _ A hI
    rw [hAf] at hmem
    rw [index_source_fileSyms _ f rootB pkgB hw1.nodups hfpB, hB] at hmem
    exact hAB (List.mem_singleton.mp hmem)
  · -- B is the single added symbol of the last (re-)index
    rw [index_source_eq, indexSourceTree_some _ _ _ pkgB hfpB, hB]
    have hndJ : NodupIdx ((index_source idx f rootA).remove_file f) :=
      (remove_file_char _ f hw1.nodups).1
    obtain ⟨-, -, -, -, -, n6⟩ := hndJ
    exact inAllViews_add_last _ B n6

theorem C3_reindex_replaces_witness :
    ¬ InAnyView (index_source (index_source emptyIndex "/a.iop"
      fileFooCommon) "/a.iop" fileFooOther) symFooCommon ∧
    InAllViews (index_source (index_source emptyIndex "/a.iop"
      fileFooCommon) "/a.iop" fileFooOther) symFooOther :=
  C3_reindex_replaces emptyIndex "/a.iop" fileFooCommon fileFooOther
    "foo" "foo" symFooCommon symFooOther wfs_empty
    rfl (by decide) rfl (by decide) (by decide) (by decide) (by decide)

/-! ### Claim C4: field type references -/

theorem extract_field_cases (prevRev : List TSTree) (c : TSTree)
    (nextSibs : List TSTree) (fld : FieldSymbol)
    (h : extract_field prevRev c nextSibs = some fld) :
    ∃ var, findChild c "variable" = some var ∧
      fld.type_ref =
        match (findChild var "type").map TSTree.text with
        | some t =>
          if t ≠ "" && !BUILTIN_TYPES.contains t then some t else none
        | none => none := by
  unfold extract_field at h
  by_cases hc : c.type = "field"
  · rw [if_pos hc] at h
    cases hvar : findChild c "variable" with
    | none => rw [hvar] at h; exact Option.noConfusion h
    | some var =>
      rw [hvar] at h
      cases Option.some.inj h
      exact ⟨var, rfl, rfl⟩
  · rw [if_neg hc] at h
    exact Option.noConfusion h

theorem mem_fieldsGo :
    ∀ (cs prevRev : List TSTree) (fld : FieldSymbol),
      fld ∈ fieldsGo prevRev cs →
      ∃ pr2 c ns, extract_field pr2 c ns = some fld := by
  intro cs
  induction cs with
  | nil => intro pr fld h; simp [fieldsGo] at h
  | cons c rest ih =>
    intro pr fld h
    cases hef : extract_field pr c rest with
    | some f0 =>
      rw [fieldsGo, hef] at h
      rcases List.mem_cons.mp h with rfl | h2
      · exact ⟨pr, c, rest, hef⟩
      · exact ih (c :: pr) fld h2
    | none =>
      rw [fieldsGo, hef] at h
      exact ih (c :: pr) fld h

/-- C4: field extraction records a type reference only for a present,
non-empty, non-builtin type name; a field whose type text is a builtin
primitive, or whose variable has no type child, gets no type reference. -/
theorem C4_field_type_reference :
    (∀ block fld, fld ∈ extract_fields block →
      ∀ t, fld.type_ref = some t →
        BUILTIN_TYPES.contains t = false ∧ t ≠ "") ∧
    (∀ prevRev c nextSibs fld var tn,
      extract_field prevRev c nextSibs = some fld →
      findChild c "variable" = some var →
      findChild var "type" = some tn →
      BUILTIN_TYPES.contains tn.text = true →
      fld.type_ref = none) ∧
    (∀ prevRev c nextSibs fld var,
      extract_field prevRev c nextSibs = some fld →
      findChild c "variable" = some var →
      findChild var "type" = none →
      fld.type_ref = none) := by
  refine ⟨?_, ?_, ?_⟩
  · intro block fld hmem t ht
    obtain ⟨pr2, c, ns, hef⟩ := mem_fieldsGo block.children [] fld hmem
    obtain ⟨var, hvar, htr⟩ := extract_field_cases pr2 c ns fld hef
    cases htype : findChild var "type" with
    | none =>
      rw [htype] at htr
      simp only [Option.map_none'] at htr
      rw [htr] at ht
      exact Option.noConfusion ht
    | some tn =>
      rw [htype] at htr
      simp only [Option.map_some'] at htr
      rw [htr] at ht
      by_cases hcond :
          (tn.text ≠ "" && !BUILTIN_TYPES.contains tn.text) = true
      · rw [if_pos hcond] at ht
        cases Option.some.inj ht
        obtain ⟨h1, h2⟩ := Bool.and_eq_true_iff.mp hcond
        refine ⟨?_, of_decide_eq_true h1⟩
        cases hb : BUILTIN_TYPES.contains tn.text with
        | false => rfl
        | true => rw [hb] at h2; exact absurd h2 (by simp)
      · rw [if_neg hcond] at ht
        exact Option.noConfusion ht
  · intro prevRev c nextSibs fld var tn hef hvar htype hbt
    obtain ⟨var2, hvar2, htr⟩ := extract_field_cases prevRev c nextSibs
      fld hef
    rw [hvar] at hvar2
    cases Option.some.inj hvar2
    rw [htype] at htr
    simp only [Option.map_some'] at htr
    rw [htr, hbt]
    simp
  · intro prevRev c nextSibs fld var hef hvar htype
    obtain ⟨var2, hvar2, htr⟩ := extract_field_cases prevRev c nextSibs
      fld hef
    rw [hvar] at hvar2
    cases Option.some.inj hvar2
    rw [htype] at htr
    simpa using htr

theorem C4_field_type_reference_witness :
    (BUILTIN_TYPES.contains "Color" = false ∧ "Color" ≠ "") ∧
    fldInt.type_ref = none :=
  ⟨C4_field_type_reference.1 blockColorInt fldColor (by decide) "Color"
    (by decide),
   C4_field_type_reference.2.1 [fieldNode "Color" "c"] (fieldNode "int" "x")
    [] fldInt (.node "variable" "" true 0 0 0 0 [typeNode "int", idNode "x"])
    (typeNode "int") (by decide) rfl rfl (by decide)⟩

/-! ### Claim C8: the name mangler -/

theorem rsplitDot_eq_none (l : List Char) (h : '.' ∉ l) :
    rsplitDot l = none := by
  induction l with
  | nil => rfl
  | cons c rest ih =>
    simp only [List.mem_cons, not_or] at h
    simp only [rsplitDot]
    rw [ih h.2, if_neg (fun he : c = '.' => h.1 he.symm)]

/-- C8: the stated name-mangling vectors hold, and a qualified name without a
package portion (no dot) maps to just the snake-cased type name. -/
theorem C8_name_mangler :
    camelcase_to_c "HTTPCode" = "http_code" ∧
    camelcase_to_c "MyStructA" = "my_struct_a" ∧
    c_to_camelcase "my_struct_a" = "MyStructA" ∧
    iop_type_to_c "tstiop.MyStructA" = "tstiop__my_struct_a" ∧
    iop_type_to_c "test.dso.ClassDso" = "test__dso__class_dso" ∧
    (∀ s : String, '.' ∉ s.data → iop_type_to_c s = camelcase_to_c s) := by
  refine ⟨rfl, rfl, rfl, rfl, rfl, fun s hdot => ?_⟩
  unfold iop_type_to_c
  rw [rsplitDot_eq_none s.data hdot]

theorem C8_name_mangler_witness :
    '.' ∉ "Foo".data ∧ iop_type_to_c "Foo" = camelcase_to_c "Foo" :=
  ⟨by decide, C8_name_mangler.2.2.2.2.2 "Foo" (by decide)⟩

/-! ### Claim C9: doc-comment extraction -/

/-- C9: a `/**` (but not `/***`, not `/**<`) block comment immediately before
a declaration — attributes allowed in between — yields the cleaned doc text;
`/***` and `/**<` comments yield no preceding doc; a `/**<` comment trailing
on the node's end line yields its trimmed text. -/
theorem C9_doc_comments :
    getDocComment
      [TSTree.node "comment" "/** A test struct. */" true 0 0 0 21 []] =
      some "A test struct." ∧
    getDocComment
      [TSTree.node "attribute" "@ctype(foo_t)" true 1 0 1 13 [],
       TSTree.node "comment" "/** A test struct. */" true 0 0 0 21 []] =
      some "A test struct." ∧
    getDocComment
      [TSTree.node "comment" "/*** separator */" true 0 0 0 17 []] = none ∧
    getDocComment
      [TSTree.node "comment" "/**< trailing */" true 0 0 0 16 []] = none ∧
    getTrailingDocComment
      (TSTree.node "enum_field" "LOW = 0" true 2 4 2 11 [])
      [TSTree.node "comment" "/**< low level */" true 2 13 2 30 []] =
      some "low level" :=
  ⟨rfl, rfl, rfl, rfl, rfl⟩

/-! ### Claims C5 and C6: name and enum-value resolution -/

/-- C5: for a simple (dot-free) non-builtin name with a (truthy) current
package, `resolve` returns absent on zero candidates, the sole candidate on
one, and otherwise the first candidate whose package equals the current
package, falling back to the first candidate in insertion order; in the
two-package `Common` example, `resolve("Common", "bar")` returns bar's
definition. -/
theorem C5_resolve_simple (idx : SymbolIndex) (name p : String)
    (hb : BUILTIN_TYPES.contains name = false)
    (hd : name.data.contains '.' = false)
    (hp : p ≠ "") :
    (idx.resolve name (some p) =
      match (alGet idx.by_name name).getD [] with
      | [] => none
      | [c] => some c
      | c :: _ :: _ =>
        match ((alGet idx.by_name name).getD []).find?
            (fun x => x.package = p) with
        | some x => some x
        | none => some c) ∧
    idxFooBar.resolve "Common" (some "bar") = some symBarCommon := by
  refine ⟨?_, by decide⟩
  unfold SymbolIndex.resolve
  rw [hb, hd]
  simp only [Bool.false_eq_true, if_false]
  cases halget : alGet idx.by_name name with
  | none => rfl
  | some l =>
    cases l with
    | nil => rfl
    | cons c cs =>
      cases cs with
      | nil => rfl
      | cons c2 cs2 =>
        simp only [Option.getD_some]
        rw [if_pos hp]

theorem C5_resolve_simple_witness :
    ((idxFooBar.resolve "Common" (some "foo") =
      match (alGet idxFooBar.by_name "Common").getD [] with
      | [] => none
      | [c] => some c
      | c :: _ :: _ =>
        match ((alGet idxFooBar.by_name "Common").getD []).find?
            (fun x => x.package = "foo") with
        | some x => some x
        | none => some c) ∧
    idxFooBar.resolve "Common" (some "bar") = some symBarCommon) :=
  C5_resolve_simple idxFooBar "Common" "foo" (by decide) (by decide)
    (by decide)

/-- C6: `resolve_enum_value` scans the current package's enums first — a hit
there is the result regardless of the rest of the workspace — and only on
failure falls back to scanning all enums workspace-wide; with value `X`
declared by enums in both `pkgB` (indexed first) and `pkgA`,
`resolveEnumValue("X", pkgA)` returns pkgA's enum. -/
theorem C6_resolve_enum_value (idx : SymbolIndex) (v p : String)
    (hp : p ≠ "") :
    (∀ r, findEnumValueIn ((alGet idx.by_package p).getD []) v = some r →
      idx.resolve_enum_value v (some p) = some r) ∧
    (findEnumValueIn ((alGet idx.by_package p).getD []) v = none →
      idx.resolve_enum_value v (some p) = findEnumValueAll idx.by_name v) ∧
    idxTwoEnums.resolve_enum_value "X" (some "pkgA") =
      some (symEnumEA, evX) := by
  refine ⟨?_, ?_, by decide⟩
  · intro r hr
    simp only [SymbolIndex.resolve_enum_value]
    rw [if_pos hp, hr]
  · intro hr
    simp only [SymbolIndex.resolve_enum_value]
    rw [if_pos hp, hr]

theorem C6_resolve_enum_value_witness :
    ((∀ r, findEnumValueIn ((alGet idxTwoEnums.by_package "pkgA").getD [])
        "X" = some r →
      idxTwoEnums.resolve_enum_value "X" (some "pkgA") = some r) ∧
    (findEnumValueIn ((alGet idxTwoEnums.by_package "pkgA").getD []) "X" =
        none →
      idxTwoEnums.resolve_enum_value "X" (some "pkgA") =
        findEnumValueAll idxTwoEnums.by_name "X") ∧
    idxTwoEnums.resolve_enum_value "X" (some "pkgA") =
      some (symEnumEA, evX)) :=
  C6_resolve_enum_value idxTwoEnums "X" "pkgA" (by decide)

/-! ### Helpers for the idempotence proof -/

theorem listIsEmpty_iff {α : Type} (l : List α) : l.isEmpty = true ↔ l = [] := by
  cases l with
  | nil => simp
  | cons a t => simp

theorem lastMatch_some (p : Symbol → Prop) [DecidablePred p] :
    ∀ (ss : List Symbol) (r : Symbol), lastMatch p ss = some r →
      r ∈ ss ∧ p r := by
  intro ss
  induction ss with
  | nil => intro r hr; exact Option.noConfusion hr
  | cons s rest ih =>
    intro r hr
    simp only [lastMatch] at hr
    cases hl : lastMatch p rest with
    | some r2 =>
      rw [hl] at hr
      cases Option.some.inj hr
      obtain ⟨hm, hp2⟩ := ih r hl
      exact ⟨List.mem_cons_of_mem s hm, hp2⟩
    | none =>
      rw [hl] at hr
      by_cases hp2 : p s
      · rw [if_pos hp2] at hr
        cases Option.some.inj hr
        exact ⟨List.mem_cons_self _ _, hp2⟩
      · rw [if_neg hp2] at hr
        exact Option.noConfusion hr

theorem lastMatch_eq_none (p : Symbol → Prop) [DecidablePred p] :
    ∀ ss : List Symbol, lastMatch p ss = none ↔ ∀ s ∈ ss, ¬ p s := by
  intro ss
  induction ss with
  | nil => simp [lastMatch]
  | cons s rest ih =>
    simp only [lastMatch]
    cases hl : lastMatch p rest with
    | some r =>
      constructor
      · intro hr; exact Option.noConfusion hr
      · intro hall
        obtain ⟨hm, hp2⟩ := lastMatch_some p rest r hl
        exact absurd hp2 (hall r (List.mem_cons_of_mem s hm))
    | none =>
      constructor
      · intro hr t ht
        rcases List.mem_cons.mp ht with rfl | ht2
        · intro hp2
          rw [if_pos hp2] at hr
          exact Option.noConfusion hr
        · exact (ih.mp hl) t ht2
      · intro hall
        rw [if_neg (hall s (List.mem_cons_self _ _))]

/-- Removing file `f`'s entries from a bucket that is the `f`-clean old
bucket with only file-`f` symbols appended restores the old bucket. -/
theorem optBucketRemove_append_clean (f : String) (o : Option (List Symbol))
    (extra : List Symbol)
    (hno : ∀ t ∈ o.getD [], t.file ≠ f)
    (hnel : ∀ l, o = some l → l ≠ [])
    (hextra : ∀ t ∈ extra, t.file = f) :
    optBucketRemove f (some (o.getD [] ++ extra)) = o := by
  rw [optBucketRemove_eq]
  simp only [Option.getD_some]
  rw [List.filter_append]
  have h1 : extra.filter (fun s => s.file ≠ f) = [] :=
    List.filter_eq_nil_iff.mpr (fun a ha hpa => by
      simp [hextra a ha] at hpa)
  have h2 : (o.getD []).filter (fun s => s.file ≠ f) = o.getD [] :=
    List.filter_eq_self.mpr (fun a ha => by simp [hno a ha])
  rw [h1, h2, List.append_nil]
  cases o with
  | none => rfl
  | some l =>
    simp only [Option.getD_some]
    rw [if_neg (fun hemp => hnel l rfl ((listIsEmpty_iff l).mp hemp))]

/-! ### Claim C7: idempotence of re-indexing identical content -/

/-- C7: indexing identical content for the same file twice in succession
leaves every index view equivalent — the same lookup results, hence the same
entries and the same candidate order in the one-to-many views — as indexing
that content once. -/
theorem C7_reindex_idempotent (idx : SymbolIndex) (f : String)
    (root : TSTree) (h : WFS idx)
    (hp : ∀ p, findPackage root.children = some p → p ≠ "") :
    ViewEquiv (index_source (index_source idx f root) f root)
      (index_source idx f root) := by
  cases hfp : findPackage root.children with
  | none =>
    have h1 : index_source idx f root = idx.remove_file f := by
      rw [index_source_eq, indexSourceTree_none _ _ _ hfp]
    rw [h1]
    have h2 : index_source (idx.remove_file f) f root =
        (idx.remove_file f).remove_file f := by
      rw [index_source_eq, indexSourceTree_none _ _ _ hfp]
    rw [h2]
    have hndJ : NodupIdx (idx.remove_file f) :=
      (remove_file_char idx f h.nodups).1
    obtain ⟨-, hfile1, hpof1, -⟩ := remove_file_char idx f h.nodups
    obtain ⟨-, hfile2, hpof2, hname2, hqn2, hc2, hpkg2⟩ :=
      remove_file_char (idx.remove_file f) f hndJ
    have hJfile : alGet (idx.remove_file f).by_file f = none := by
      rw [hfile1 f, if_pos rfl]
    have hJpof : alGet (idx.remove_file f).package_of_file f = none := by
      rw [hpof1 f, if_pos rfl]
    have hsyms : fileSyms (idx.remove_file f) f = [] := by
      unfold fileSyms
      rw [hJfile]
      rfl
    refine ⟨?_, ?_, ?_, ?_, ?_, ?_⟩
    · intro q
      rw [hname2 q, hsyms]
      simp
    · intro q
      rw [hqn2 q, hsyms]
      simp
    · intro q
      rw [hpkg2 q, hsyms]
      simp
    · intro q
      rw [hfile2 q]
      by_cases hq : q = f
      · rw [if_pos hq, hq, hJfile]
      · rw [if_neg hq]
    · intro q
      rw [hpof2 q]
      by_cases hq : q = f
      · rw [if_pos hq, hq, hJpof]
      · rw [if_neg hq]
    · intro q
      rw [hc2 q, hsyms]
      simp
  | some pkg =>
    have hpkgne : pkg ≠ "" := hp pkg hfp
    have hwJ : WFS (idx.remove_file f) := wfs_remove idx f h
    obtain ⟨-, hfileJ, hpofJ, -⟩ := remove_file_char idx f h.nodups
    have hJfile : alGet (idx.remove_file f).by_file f = none := by
      rw [hfileJ f, if_pos rfl]
    have hJpof : alGet (idx.remove_file f).package_of_file f = none := by
      rw [hpofJ f, if_pos rfl]
    have hJnof : ∀ t : Symbol, InIndex (idx.remove_file f) t →
        t.file ≠ f := by
      rintro t ⟨l, hl, -⟩ hf0
      rw [hf0, hJfile] at hl
      exact Option.noConfusion hl
    have hDfields : ∀ s ∈ extractedSyms f pkg root,
        s.file = f ∧ s.package = pkg := fun s hs =>
      ⟨(extractedSyms_fields f pkg root s hs).1,
       (extractedSyms_fields f pkg root s hs).2.1⟩
    have hsymsA : fileSyms (index_source idx f root) f =
        extractedSyms f pkg root :=
      index_source_fileSyms idx f root pkg h.nodups hfp
    have hwA : WFS (index_source idx f root) :=
      wfs_index_source idx f root h hp
    set D := extractedSyms f pkg root with hDdef
    set J := idx.remove_file f with hJdef
    set A := index_source idx f root with hAdef
    -- cleanliness of J's buckets
    have hJname_clean : ∀ q (t : Symbol),
        t ∈ (alGet J.by_name q).getD [] → t.file ≠ f := by
      intro q t ht
      cases hJq : alGet J.by_name q with
      | none => rw [hJq] at ht; simp at ht
      | some l =>
        rw [hJq] at ht
        simp only [Option.getD_some] at ht
        exact hJnof t ((hwJ.name_key q l hJq).2 t ht).2
    have hJname_ne : ∀ q l, alGet J.by_name q = some l → l ≠ [] :=
      fun q l hl => (hwJ.name_key q l hl).1
    have hJpkg_clean : ∀ q (t : Symbol),
        t ∈ (alGet J.by_package q).getD [] → t.file ≠ f := by
      intro q t ht
      cases hJq : alGet J.by_package q with
      | none => rw [hJq] at ht; simp at ht
      | some l =>
        rw [hJq] at ht
        simp only [Option.getD_some] at ht
        exact hJnof t ((hwJ.pkg_key q l hJq).2 t ht).2
    have hJpkg_ne : ∀ q l, alGet J.by_package q = some l → l ≠ [] :=
      fun q l hl => (hwJ.pkg_key q l hl).1
    -- the once-indexed state as an add fold over the package-recorded J
    have hidx1 : A = D.foldl SymbolIndex.add_symbol
        { J with package_of_file := alSet J.package_of_file f pkg } := by
      rw [hAdef, index_source_eq, indexSourceTree_some _ _ _ pkg hfp]
    have hndK1 : NodupIdx
        { J with package_of_file := alSet J.package_of_file f pkg } :=
      nodupIdx_setpof J f pkg hwJ.nodups
    obtain ⟨-, hname1, hpkg1, hfile1A, hqn1A, hc1A, hpof1eq⟩ :=
      addFold_char D _ hndK1
    have hname1A : ∀ q, alGet A.by_name q =
        if D.filter (fun s => s.name = q) = [] then alGet J.by_name q
        else some ((alGet J.by_name q).getD [] ++
          D.filter (fun s => s.name = q)) := by
      intro q
      rw [hidx1]
      exact hname1 q
    have hpkg1A2 : ∀ q, alGet A.by_package q =
        if D.filter (fun s => s.package = q) = [] then alGet J.by_package q
        else some ((alGet J.by_package q).getD [] ++
          D.filter (fun s => s.package = q)) := by
      intro q
      rw [hidx1]
      exact hpkg1 q
    have hfile1A2 : ∀ q, alGet A.by_file q =
        if D.filter (fun s => s.file = q) = [] then alGet J.by_file q
        else some ((alGet J.by_file q).getD [] ++
          D.filter (fun s => s.file = q)) := by
      intro q
      rw [hidx1]
      exact hfile1A q
    have hqn1A2 : ∀ q, alGet A.by_qualified_name q =
        match lastMatch (fun s => q = s.qualified_name) D with
        | some r => some r
        | none => alGet J.by_qualified_name q := by
      intro q
      rw [hidx1]
      exact hqn1A q
    have hc1A2 : ∀ q, alGet A.by_c_name q =
        match lastMatch (fun s => q ∈ cKeys s) D with
        | some r => some r
        | none => alGet J.by_c_name q := by
      intro q
      rw [hidx1]
      exact hc1A q
    have hpof1A : ∀ q, alGet A.package_of_file q =
        if q = f then some pkg else alGet J.package_of_file q := by
      intro q
      rw [hidx1]
      show alGet (D.foldl SymbolIndex.add_symbol _).package_of_file q = _
      rw [hpof1eq]
      show alGet (alSet J.package_of_file f pkg) q = _
      rw [alGet_alSet]
    have hApoff : alGet A.package_of_file f = some pkg := by
      rw [hpof1A f, if_pos rfl]
    -- the twice-indexed state
    have hidx2 : index_source A f root = D.foldl SymbolIndex.add_symbol
        { A.remove_file f with
          package_of_file :=
            alSet (A.remove_file f).package_of_file f pkg } := by
      rw [index_source_eq, indexSourceTree_some _ _ _ pkg hfp]
    rw [hidx2]
    have hndA : NodupIdx A := hwA.nodups
    obtain ⟨hndRA, hfileRA, hpofRA, hnameRA, hqnRA, hcRA, hpkgRA⟩ :=
      remove_file_char A f hndA
    have hndK2 : NodupIdx
        { A.remove_file f with
          package_of_file :=
            alSet (A.remove_file f).package_of_file f pkg } :=
      nodupIdx_setpof _ f pkg hndRA
    obtain ⟨-, hname2, hpkg2, hfile2A, hqn2A, hc2A, hpof2eq⟩ :=
      addFold_char D _ hndK2
    -- base equalities: removing the re-added file restores J, view by view
    have hBfile : ∀ q, alGet (A.remove_file f).by_file q =
        alGet J.by_file q := by
      intro q
      rw [hfileRA q]
      by_cases hq : q = f
      · rw [if_pos hq, hq, hJfile]
      · rw [if_neg hq, hfile1A2 q]
        have hfil : D.filter (fun s => s.file = q) = [] :=
          List.filter_eq_nil_iff.mpr (fun a ha hpa =>
            hq ((of_decide_eq_true hpa).symm.trans (hDfields a ha).1))
        rw [if_pos hfil]
    have hBpof : ∀ q, alGet (A.remove_file f).package_of_file q =
        if q = f then none else alGet J.package_of_file q := by
      intro q
      rw [hpofRA q]
      by_cases hq : q = f
      · rw [if_pos hq, if_pos hq]
      · rw [if_neg hq, if_neg hq, hpof1A q, if_neg hq]
    have hBname : ∀ q, alGet (A.remove_file f).by_name q =
        alGet J.by_name q := by
      intro q
      rw [hnameRA q, hsymsA]
      by_cases hq : ∃ s ∈ D, q = s.name
      · rw [if_pos hq, hname1A q]
        have hfilne : ¬ D.filter (fun s => s.name = q) = [] := by
          obtain ⟨s, hsm, hsq⟩ := hq
          intro hnil
          have hmem : s ∈ D.filter (fun s => s.name = q) :=
            List.mem_filter.mpr ⟨hsm, by simp [hsq.symm]⟩
          rw [hnil] at hmem
          simp at hmem
        rw [if_neg hfilne]
        exact optBucketRemove_append_clean f _ _ (hJname_clean q)
          (hJname_ne q)
          (fun t ht => (hDfields t (List.mem_filter.mp ht).1).1)
      · rw [if_neg hq, hname1A q]
        have hfil : D.filter (fun s => s.name = q) = [] :=
          List.filter_eq_nil_iff.mpr (fun a ha hpa =>
            hq ⟨a, ha, (of_decide_eq_true hpa).symm⟩)
        rw [if_pos hfil]
    have hBpkg : ∀ q, alGet (A.remove_file f).by_package q =
        alGet J.by_package q := by
      intro q
      rw [hpkgRA q, hsymsA]
      by_cases hq : ∃ x ∈ D, pkgKey (alGet A.package_of_file f) = some q
      · obtain ⟨s0, hs0, hpk⟩ := hq
        rw [hApoff] at hpk
        simp only [pkgKey] at hpk
        rw [if_neg hpkgne] at hpk
        have hqpkg : q = pkg := (Option.some.inj hpk).symm
        have hcond : pkgKey (alGet A.package_of_file f) = some q := by
          rw [hApoff]
          simp only [pkgKey]
          rw [if_neg hpkgne, hqpkg]
        rw [if_pos ⟨s0, hs0, hcond⟩]
        rw [hpkg1A2 q]
        have hfilD : D.filter (fun s => s.package = q) = D :=
          List.filter_eq_self.mpr (fun a ha => by
            simp [(hDfields a ha).2, hqpkg])
        rw [hfilD]
        have hDne : ¬ D = [] := fun hD0 => by
          rw [hD0] at hs0
          simp at hs0
        rw [if_neg hDne]
        exact optBucketRemove_append_clean f _ _ (hJpkg_clean q)
          (hJpkg_ne q) (fun t ht => (hDfields t ht).1)
      · rw [if_neg hq, hpkg1A2 q]
        have hfil : D.filter (fun s => s.package = q) = [] :=
          List.filter_eq_nil_iff.mpr (fun a ha hpa => by
            apply hq
            refine ⟨a, ha, ?_⟩
            rw [hApoff]
            simp only [pkgKey]
            rw [if_neg hpkgne, ← (hDfields a ha).2,
              of_decide_eq_true hpa])
        rw [if_pos hfil]
    have hBqn : ∀ q, (∀ s ∈ D, ¬ q = s.qualified_name) →
        alGet (A.remove_file f).by_qualified_name q =
          alGet J.by_qualified_name q := by
      intro q hnone
      rw [hqnRA q, hsymsA]
      rw [if_neg (fun he => by
        obtain ⟨s, hsm, hsq⟩ := he
        exact hnone s hsm hsq)]
      rw [hqn1A2 q, (lastMatch_eq_none _ D).mpr hnone]
    have hBc : ∀ q, (∀ s ∈ D, ¬ q ∈ cKeys s) →
        alGet (A.remove_file f).by_c_name q =
          alGet J.by_c_name q := by
      intro q hnone
      rw [hcRA q, hsymsA]
      rw [if_neg (fun he => by
        obtain ⟨s, hsm, hsq⟩ := he
        exact hnone s hsm hsq)]
      rw [hc1A2 q, (lastMatch_eq_none _ D).mpr hnone]
    -- assemble the six view equalities
    refine ⟨?_, ?_, ?_, ?_, ?_, ?_⟩
    · intro q
      rw [hname2 q, hname1A q]
      show (if D.filter (fun s => s.name = q) = []
          then alGet (A.remove_file f).by_name q
          else some ((alGet (A.remove_file f).by_name q).getD [] ++
            D.filter (fun s => s.name = q))) = _
      rw [hBname q]
    · intro q
      rw [hqn2A q, hqn1A2 q]
      show (match lastMatch (fun s => q = s.qualified_name) D with
        | some r => some r
        | none => alGet (A.remove_file f).by_qualified_name q) = _
      cases hlm : lastMatch (fun s => q = s.qualified_name) D with
      | some r => rfl
      | none => exact hBqn q ((lastMatch_eq_none _ D).mp hlm)
    · intro q
      rw [hpkg2 q, hpkg1A2 q]
      show (if D.filter (fun s => s.package = q) = []
          then alGet (A.remove_file f).by_package q
          else some ((alGet (A.remove_file f).by_package q).getD [] ++
            D.filter (fun s => s.package = q))) = _
      rw [hBpkg q]
    · intro q
      rw [hfile2A q, hfile1A2 q]
      show (if D.filter (fun s => s.file = q) = []
          then alGet (A.remove_file f).by_file q
          else some ((alGet (A.remove_file f).by_file q).getD [] ++
            D.filter (fun s => s.file = q))) = _
      rw [hBfile q]
    · intro q
      rw [hpof2eq]
      show alGet (alSet (A.remove_file f).package_of_file f pkg) q = _
      rw [alGet_alSet, hpof1A q]
      by_cases hq : q = f
      · rw [if_pos hq, if_pos hq]
      · rw [if_neg hq, if_neg hq, hBpof q, if_neg hq]
    · intro q
      rw [hc2A q, hc1A2 q]
      show (match lastMatch (fun s => q ∈ cKeys s) D with
        | some r => some r
        | none => alGet (A.remove_file f).by_c_name q) = _
      cases hlm : lastMatch (fun s => q ∈ cKeys s) D with
      | some r => rfl
      | none => exact hBc q ((lastMatch_eq_none _ D).mp hlm)

theorem C7_reindex_idempotent_witness :
    ViewEquiv
      (index_source (index_source emptyIndex "/a.iop" fileFooCommon)
        "/a.iop" fileFooCommon)
      (index_source emptyIndex "/a.iop" fileFooCommon) :=
  C7_reindex_idempotent emptyIndex "/a.iop" fileFooCommon wfs_empty
    (fun p hp => by
      rw [show findPackage fileFooCommon.children = some "foo" from rfl]
        at hp
      cases Option.some.inj hp
      decide)

/-! ### Full well-formedness (soundness plus completeness) -/

theorem mem_cKeys (s : Symbol) (k : String) :
    k ∈ cKeys s ↔ k = iop_type_to_c s.qualified_name ∨
      ∃ ct, s.ctype = some ct ∧ ct ≠ "" ∧ k = stripCSuffix ct := by
  unfold cKeys
  cases hct : s.ctype with
  | none => simp
  | some ct =>
    by_cases hne : ct = ""
    · subst hne
      simp
    · simp [hne]

theorem fileSyms_mem (idx : SymbolIndex) (f : String) (s : Symbol)
    (h : WFS idx) (hs : s ∈ fileSyms idx f) :
    InIndex idx s ∧ s.file = f := by
  unfold fileSyms at hs
  cases hget : alGet idx.by_file f with
  | none => rw [hget] at hs; simp at hs
  | some l =>
    rw [hget] at hs
    simp only [Option.getD_some] at hs
    have hf := h.file_key f l hget s hs
    exact ⟨⟨l, by rw [hf]; exact hget, hs⟩, hf⟩

theorem mem_optBucketRemove (f : String) (o : Option (List Symbol))
    (t : Symbol) (ht : t ∈ o.getD []) (htf : t.file ≠ f) :
    t ∈ ((optBucketRemove f o).getD []) := by
  rw [optBucketRemove_eq]
  have hmem : t ∈ (o.getD []).filter (fun s => s.file ≠ f) :=
    List.mem_filter.mpr ⟨ht, by simp [htf]⟩
  rw [if_neg (fun hemp => by
    rw [(listIsEmpty_iff _).mp hemp] at hmem
    simp at hmem)]
  exact hmem

theorem wf_empty : WF emptyIndex := by
  refine ⟨wfs_empty, ?_⟩
  rintro s ⟨l, hget, -⟩
  exact Option.noConfusion hget

theorem wf_setpkg (idx : SymbolIndex) (f p : String) (h : WF idx)
    (hfile : alGet idx.by_file f = none) :
    WF { idx with package_of_file := alSet idx.package_of_file f p } :=
  ⟨wfs_setpof idx f p h.toWFS hfile, h.complete⟩

theorem wf_add (idx : SymbolIndex) (s : Symbol) (h : WF idx)
    (hfresh : Fresh idx s) : WF (idx.add_symbol s) := by
  obtain ⟨hpof, hpkgne, hqnF, hcF, hctF⟩ := hfresh
  refine ⟨wfs_add idx s h.toWFS hpof hpkgne, ?_⟩
  intro t htI
  rcases (inIndex_add idx s t).mp htI with htI0 | rfl
  · obtain ⟨o1, o2, o3, o4, o5, o6⟩ := h.complete t htI0
    obtain ⟨n1, n2, n3, n4, n5, n6⟩ := h.nodups
    refine ⟨?_, ?_, ?_, ?_, ?_, ?_⟩
    · rw [add_symbol_by_name, alGet_alAppend]
      by_cases hq : t.name = s.name
      · rw [if_pos hq]
        simp only [Option.getD_some]
        rw [← hq]
        exact List.mem_append.mpr (Or.inl o1)
      · rw [if_neg hq]
        exact o1
    · rw [add_symbol_by_qn, alGet_alSet]
      by_cases hq : t.qualified_name = s.qualified_name
      · rw [hq] at o2
        rw [hqnF] at o2
        exact Option.noConfusion o2
      · rw [if_neg hq]
        exact o2
    · rw [add_symbol_by_package, alGet_alAppend]
      by_cases hq : t.package = s.package
      · rw [if_pos hq]
        simp only [Option.getD_some]
        rw [← hq]
        exact List.mem_append.mpr (Or.inl o3)
      · rw [if_neg hq]
        exact o3
    · rw [add_symbol_by_file, alGet_alAppend]
      by_cases hq : t.file = s.file
      · rw [if_pos hq]
        simp only [Option.getD_some]
        rw [← hq]
        exact List.mem_append.mpr (Or.inl o4)
      · rw [if_neg hq]
        exact o4
    · rw [add_symbol_by_c, (keysSetFold s (cKeys s) idx.by_c_name n6).2]
      by_cases hq : iop_type_to_c t.qualified_name ∈ cKeys s
      · exfalso
        rcases (mem_cKeys s _).mp hq with hk | ⟨ct, hct, hctne, hk⟩
        · rw [hk, hcF] at o5
          exact Option.noConfusion o5
        · rcases hctF ct hct hctne with hsame | hnone
          · rw [hk, hsame, hcF] at o5
            exact Option.noConfusion o5
          · rw [hk, hnone] at o5
            exact Option.noConfusion o5
      · rw [if_neg hq]
        exact o5
    · intro ct2 hct2 hne2
      have o6x := o6 ct2 hct2 hne2
      rw [add_symbol_by_c, (keysSetFold s (cKeys s) idx.by_c_name n6).2]
      by_cases hq : stripCSuffix ct2 ∈ cKeys s
      · exfalso
        rcases (mem_cKeys s _).mp hq with hk | ⟨ct, hct, hctne, hk⟩
        · rw [hk, hcF] at o6x
          exact Option.noConfusion o6x
        · rcases hctF ct hct hctne with hsame | hnone
          · rw [hk, hsame, hcF] at o6x
            exact Option.noConfusion o6x
          · rw [hk, hnone] at o6x
            exact Option.noConfusion o6x
      · rw [if_neg hq]
        exact o6x
  · exact inAllViews_add_last idx t h.nodups.2.2.2.2.2

theorem wf_remove (idx : SymbolIndex) (f : String) (h : WF idx) :
    WF (idx.remove_file f) := by
  refine ⟨wfs_remove idx f h.toWFS, ?_⟩
  intro t htI
  obtain ⟨htI0, htf⟩ := (inIndex_remove idx f t h.nodups).mp htI
  obtain ⟨o1, o2, o3, o4, o5, o6⟩ := h.complete t htI0
  obtain ⟨-, hfileg, hpofg, hnameg, hqng, hcg, hpkgg⟩ :=
    remove_file_char idx f h.nodups
  have hsymNotT : ∀ s ∈ fileSyms idx f, s ≠ t := by
    intro s hs hst
    obtain ⟨-, hsf⟩ := fileSyms_mem idx f s h.toWFS hs
    rw [hst] at hsf
    exact htf hsf
  refine ⟨?_, ?_, ?_, ?_, ?_, ?_⟩
  · rw [hnameg t.name]
    by_cases hq : ∃ s ∈ fileSyms idx f, t.name = s.name
    · rw [if_pos hq]
      exact mem_optBucketRemove f _ t o1 htf
    · rw [if_neg hq]
      exact o1
  · rw [hqng t.qualified_name]
    by_cases hq : ∃ s ∈ fileSyms idx f, t.qualified_name = s.qualified_name
    · exfalso
      obtain ⟨s, hsm, hsq⟩ := hq
      obtain ⟨hsI, -⟩ := fileSyms_mem idx f s h.toWFS hsm
      have hs2 := (h.complete s hsI).2.1
      rw [← hsq, o2] at hs2
      exact hsymNotT s hsm (Option.some.inj hs2).symm
    · rw [if_neg hq]
      exact o2
  · rw [hpkgg t.package]
    by_cases hq : ∃ _ ∈ fileSyms idx f,
        pkgKey (alGet idx.package_of_file f) = some t.package
    · rw [if_pos hq]
      exact mem_optBucketRemove f _ t o3 htf
    · rw [if_neg hq]
      exact o3
  · rw [hfileg t.file, if_neg htf]
    exact o4
  · rw [hcg (iop_type_to_c t.qualified_name)]
    by_cases hq : ∃ s ∈ fileSyms idx f,
        iop_type_to_c t.qualified_name ∈ cKeys s
    · exfalso
      obtain ⟨s, hsm, hsk⟩ := hq
      obtain ⟨hsI, -⟩ := fileSyms_mem idx f s h.toWFS hsm
      have hsAll := h.complete s hsI
      rcases (mem_cKeys s _).mp hsk with hk | ⟨ct, hct, hctne, hk⟩
      · have hs2 := hsAll.2.2.2.2.1
        rw [← hk, o5] at hs2
        exact hsymNotT s hsm (Option.some.inj hs2).symm
      · have hs2 := hsAll.2.2.2.2.2 ct hct hctne
        rw [← hk, o5] at hs2
        exact hsymNotT s hsm (Option.some.inj hs2).symm
    · rw [if_neg hq]
      exact o5
  · intro ct2 hct2 hne2
    have o6x := o6 ct2 hct2 hne2
    rw [hcg (stripCSuffix ct2)]
    by_cases hq : ∃ s ∈ fileSyms idx f, stripCSuffix ct2 ∈ cKeys s
    · exfalso
      obtain ⟨s, hsm, hsk⟩ := hq
      obtain ⟨hsI, -⟩ := fileSyms_mem idx f s h.toWFS hsm
      have hsAll := h.complete s hsI
      rcases (mem_cKeys s _).mp hsk with hk | ⟨ct, hct, hctne, hk⟩
      · have hs2 := hsAll.2.2.2.2.1
        rw [← hk, o6x] at hs2
        exact hsymNotT s hsm (Option.some.inj hs2).symm
      · have hs2 := hsAll.2.2.2.2.2 ct hct hctne
        rw [← hk, o6x] at hs2
        exact hsymNotT s hsm (Option.some.inj hs2).symm
    · rw [if_neg hq]
      exact o6x

theorem wf_runOps :
    ∀ (ops : List IndexOp) (idx : SymbolIndex), WF idx →
      ValidOps idx ops → WF (ops.foldl applyOp idx) := by
  intro ops
  induction ops with
  | nil => intro idx h _; exact h
  | cons op rest ih =>
    intro idx h hv
    obtain ⟨hv1, hv2⟩ := hv
    rw [List.foldl_cons]
    refine ih (applyOp idx op) ?_ hv2
    cases op with
    | add s => exact wf_add idx s h hv1
    | removeFile f => exact wf_remove idx f h
    | setPackage f p => exact wf_setpkg idx f p h hv1.1

/-! ### Claim C2 -/

/-- C2 (counterexample): the claim quantifies over every sequence of
`add_symbol` and `remove_file` operations, but `remove_file` relies on the
separately maintained `package_of_file` mapping to clean `by_package`.
Adding a bare symbol and removing its file leaves the symbol present in the
`by_package` view while it is gone from `by_file` — so after `remove_file`
of its owning file it is not absent from every view, and the views are not
mutually consistent. -/
theorem C2_counterexample :
    symAX ∈ (alGet ((emptyIndex.add_symbol symAX).remove_file
      "/f.iop").by_package "a").getD [] ∧
    symAX.file = "/f.iop" ∧
    alGet ((emptyIndex.add_symbol symAX).remove_file
      "/f.iop").by_file "/f.iop" = none := by
  refine ⟨by decide, rfl, rfl⟩

/-- C2 (amended): for every sequence of index operations during which the
indexer's companion bookkeeping holds — a file's (truthy) package is
recorded in `package_of_file` before its symbols are added, and each added
symbol's qualified name and canonical names (including the ctype-override
base) are fresh — every index view stays fully consistent with the symbol
set: a symbol present in one view is present in all views applicable to its
keys, and after `remove_file` of its owning file it is absent from every
view, including the canonical-name view and the second canonical-name entry
of an explicit ctype override. -/
theorem C2_view_consistency (ops : List IndexOp)
    (hv : ValidOps emptyIndex ops) :
    (∀ s, InAnyView (runOps ops) s → InAllViews (runOps ops) s) ∧
    (∀ f s, s.file = f → ¬ InAnyView ((runOps ops).remove_file f) s) := by
  have hWF : WF (runOps ops) := wf_runOps ops emptyIndex wf_empty hv
  constructor
  · intro s hs
    exact hWF.complete s (inIndex_of_inAnyView _ s hWF.toWFS hs)
  · intro f s hs
    exact not_inAnyView_remove _ f s hWF.toWFS hs

theorem C2_view_consistency_witness :
    (∀ s, InAnyView (runOps [IndexOp.setPackage "/f.iop" "a",
        IndexOp.add symAX]) s →
      InAllViews (runOps [IndexOp.setPackage "/f.iop" "a",
        IndexOp.add symAX]) s) ∧
    (∀ f s, s.file = f →
      ¬ InAnyView ((runOps [IndexOp.setPackage "/f.iop" "a",
        IndexOp.add symAX]).remove_file f) s) :=
  C2_view_consistency [IndexOp.setPackage "/f.iop" "a", IndexOp.add symAX]
    ⟨⟨rfl, by decide⟩,
     ⟨⟨rfl, by decide, rfl, rfl,
       fun ct hct _ => Option.noConfusion hct⟩, trivial⟩⟩

end IopLsp
